import Mathlib

/-!
Verification of the Fuzzaholic structure-aware WGSL fuzzer
(`fuzzer.ts`: tokenize, mutation passes, fuzzShader).

Shallow embedding conventions:
* JS strings are Lean `String`s (lists of characters).
* JS numbers are exact rationals `ℚ`; `Math.random()` is modelled by an
  ambient stream `g : ℕ → ℚ` together with a cursor `n : ℕ` that advances
  by one for each draw, in the source's evaluation order.  A real
  `Math.random` satisfies `ValidRng g` (every draw lies in `[0, 1)`).
* Fallible JS operations (`parseFloat` producing `NaN`) return `Option`.
-/

namespace Fuzzaholic

/-- The token classification of the lexer (`TokenType` in the source). -/
inductive TokenType where
  | ident | number | punct | whitespace | comment | string | unknown
deriving DecidableEq, Repr

/-- `interface Token { type; value; index }`.  `index` is the original
position in the source; inserted tokens carry the sentinel `-1`. -/
structure Token where
  type : TokenType
  value : String
  index : Int
deriving DecidableEq, Repr

/-- JavaScript's `\s` character class (ASCII part plus the Unicode space
characters recognised by JS regexps). -/
def isJsWs (c : Char) : Bool :=
  c = ' ' || c = '\t' || c = '\n' || c = '\r' || c = '\x0b' || c = '\x0c' ||
  c.val = 0xa0 || c.val = 0x1680 || (0x2000 ≤ c.val && c.val ≤ 0x200a) ||
  c.val = 0x2028 || c.val = 0x2029 || c.val = 0x202f || c.val = 0x205f ||
  c.val = 0x3000 || c.val = 0xfeff

/-- JS regexp `.` excludes line terminators. -/
def isLineTerm (c : Char) : Bool :=
  c = '\n' || c = '\r' || c.val = 0x2028 || c.val = 0x2029

/-- `[a-zA-Z_]`, the identifier start class. -/
def isIdentStartChar (c : Char) : Bool :=
  ('a' ≤ c && c ≤ 'z') || ('A' ≤ c && c ≤ 'Z') || c = '_'

/-- `\w`, i.e. `[a-zA-Z0-9_]`. -/
def isWordChar (c : Char) : Bool :=
  isIdentStartChar c || c.isDigit

/-- `[0-9a-fA-F]`. -/
def isHexDigitChar (c : Char) : Bool :=
  c.isDigit || ('a' ≤ c && c ≤ 'f') || ('A' ≤ c && c ≤ 'F')

/-- The single-character punctuation class `[{}()\[\],;:.+*\/=\-><]`. -/
def isPunct1 (c : Char) : Bool :=
  c = '\x7b' || c = '\x7d' || c = '(' || c = ')' || c = '[' || c = ']' ||
  c = ',' || c = ';' || c = ':' || c = '.' || c = '+' || c = '*' ||
  c = '/' || c = '=' || c = '-' || c = '>' || c = '<'

/-- The two-character punctuation alternatives `->|==|!=|<=|>=|&&|\|\|`. -/
def isPunct2 (a b : Char) : Bool :=
  (a = '-' && b = '>') || (a = '=' && b = '=') || (a = '!' && b = '=') ||
  (a = '<' && b = '=') || (a = '>' && b = '=') || (a = '&' && b = '&') ||
  (a = '|' && b = '|')

/-- Shared rewriting fact for the matchers. -/
theorem twdw (p : Char → Bool) (l : List Char) :
    l.takeWhile p ++ l.dropWhile p = l :=
  List.takeWhile_append_dropWhile _ _

/-- Pattern `^\/\/.*` — a line comment. -/
def matchComment (cs : List Char) : Option (List Char × List Char) :=
  match cs with
  | a :: b :: rest =>
      if a = '/' ∧ b = '/' then
        some (a :: b :: rest.takeWhile (fun c => !isLineTerm c),
              rest.dropWhile (fun c => !isLineTerm c))
      else none
  | _ => none

/-- Pattern `^\s+` — a whitespace run. -/
def matchWs (cs : List Char) : Option (List Char × List Char) :=
  if cs.takeWhile isJsWs = [] then none
  else some (cs.takeWhile isJsWs, cs.dropWhile isJsWs)

/-- The optional exponent `(?:[eE][+-]?\d+)?` of the float alternatives;
returns the consumed characters (possibly `[]`) and the rest. -/
def matchExpOpt (cs : List Char) : List Char × List Char :=
  match cs with
  | c :: r =>
    if c = 'e' ∨ c = 'E' then
      match r with
      | s :: r2 =>
        if s = '+' ∨ s = '-' then
          if r2.takeWhile Char.isDigit = [] then ([], c :: s :: r2)
          else (c :: s :: r2.takeWhile Char.isDigit, r2.dropWhile Char.isDigit)
        else
          if r.takeWhile Char.isDigit = [] then ([], c :: r)
          else (c :: r.takeWhile Char.isDigit, r.dropWhile Char.isDigit)
      | [] => ([], cs)
    else ([], cs)
  | [] => ([], cs)

/-- Alternative `0x[0-9a-fA-F]+`. -/
def matchHex (cs : List Char) : Option (List Char × List Char) :=
  match cs with
  | a :: b :: rest =>
      if a = '0' ∧ b = 'x' ∧ rest.takeWhile isHexDigitChar ≠ [] then
        some (a :: b :: rest.takeWhile isHexDigitChar,
              rest.dropWhile isHexDigitChar)
      else none
  | _ => none

/-- Alternative `\d+\.\d+(?:[eE][+-]?\d+)?`. -/
def matchNumAlt2 (cs : List Char) : Option (List Char × List Char) :=
  if cs.takeWhile Char.isDigit = [] then none else
  match cs.dropWhile Char.isDigit with
  | c :: r2 =>
    if c = '.' then
      if r2.takeWhile Char.isDigit = [] then none
      else some (cs.takeWhile Char.isDigit ++
                   c :: (r2.takeWhile Char.isDigit ++
                         (matchExpOpt (r2.dropWhile Char.isDigit)).1),
                 (matchExpOpt (r2.dropWhile Char.isDigit)).2)
    else none
  | [] => none

/-- Alternative `\d+\.(?![eE\d])` (trailing dot, negative lookahead). -/
def matchNumAlt3 (cs : List Char) : Option (List Char × List Char) :=
  if cs.takeWhile Char.isDigit = [] then none else
  match cs.dropWhile Char.isDigit with
  | c :: r2 =>
    if c = '.' then
      match r2 with
      | [] => some (cs.takeWhile Char.isDigit ++ [c], [])
      | d :: _ =>
        if d = 'e' ∨ d = 'E' ∨ d.isDigit then none
        else some (cs.takeWhile Char.isDigit ++ [c], r2)
    else none
  | [] => none

/-- Alternative `\.\d+(?:[eE][+-]?\d+)?`. -/
def matchNumAlt4 (cs : List Char) : Option (List Char × List Char) :=
  match cs with
  | c :: r =>
    if c = '.' then
      if r.takeWhile Char.isDigit = [] then none
      else some (c :: (r.takeWhile Char.isDigit ++
                       (matchExpOpt (r.dropWhile Char.isDigit)).1),
                 (matchExpOpt (r.dropWhile Char.isDigit)).2)
    else none
  | [] => none

/-- Alternative `\d+u?`. -/
def matchNumAlt5 (cs : List Char) : Option (List Char × List Char) :=
  if cs.takeWhile Char.isDigit = [] then none else
  match cs.dropWhile Char.isDigit with
  | c :: r =>
    if c = 'u' then some (cs.takeWhile Char.isDigit ++ [c], r)
    else some (cs.takeWhile Char.isDigit, c :: r)
  | [] => some (cs.takeWhile Char.isDigit, [])

/-- The full number pattern: JS alternation tries the alternatives in
written order. -/
def matchNumber (cs : List Char) : Option (List Char × List Char) :=
  match matchHex cs with
  | some x => some x
  | none =>
    match matchNumAlt2 cs with
    | some x => some x
    | none =>
      match matchNumAlt3 cs with
      | some x => some x
      | none =>
        match matchNumAlt4 cs with
        | some x => some x
        | none => matchNumAlt5 cs

/-- Pattern `^[a-zA-Z_]\w*`. -/
def matchIdent (cs : List Char) : Option (List Char × List Char) :=
  match cs with
  | c :: r =>
      if isIdentStartChar c then
        some (c :: r.takeWhile isWordChar, r.dropWhile isWordChar)
      else none
  | [] => none

/-- Multi-character punctuation pattern. -/
def matchPunctMulti (cs : List Char) : Option (List Char × List Char) :=
  match cs with
  | a :: b :: r => if isPunct2 a b then some ([a, b], r) else none
  | _ => none

/-- Single-character punctuation pattern. -/
def matchPunctSingle (cs : List Char) : Option (List Char × List Char) :=
  match cs with
  | c :: r => if isPunct1 c then some ([c], r) else none
  | [] => none

/-- Tries the lexer patterns in their priority order (comment, whitespace,
number, ident, multi-char punct, single-char punct). -/
def firstMatch (cs : List Char) : Option (TokenType × List Char × List Char) :=
  match matchComment cs with
  | some (t, r) => some (TokenType.comment, t, r)
  | none =>
    match matchWs cs with
    | some (t, r) => some (TokenType.whitespace, t, r)
    | none =>
      match matchNumber cs with
      | some (t, r) => some (TokenType.number, t, r)
      | none =>
        match matchIdent cs with
        | some (t, r) => some (TokenType.ident, t, r)
        | none =>
          match matchPunctMulti cs with
          | some (t, r) => some (TokenType.punct, t, r)
          | none =>
            match matchPunctSingle cs with
            | some (t, r) => some (TokenType.punct, t, r)
            | none => none

/-- The scanning loop of `tokenize`, with fuel (`tokenize` supplies the
input length, which suffices because every step consumes at least one
character; unmatched characters become single `unknown` tokens). -/
def tokenizeFuel : Nat → List Char → Int → List Token
  | 0, _, _ => []
  | _ + 1, [], _ => []
  | fuel + 1, c :: cs, idx =>
    match firstMatch (c :: cs) with
    | some (ty, t, r) =>
        ⟨ty, ⟨t⟩, idx⟩ :: tokenizeFuel fuel r (idx + t.length)
    | none =>
        ⟨TokenType.unknown, ⟨[c]⟩, idx⟩ :: tokenizeFuel fuel cs (idx + 1)

/-- `tokenize(code)` from the source. -/
def tokenize (s : String) : List Token :=
  tokenizeFuel s.data.length s.data 0

/-- `tokens.map(t => t.value).join('')` — the serializer. -/
def serialize (ts : List Token) : String :=
  ts.foldr (fun t acc => t.value ++ acc) ""

/-- Character-level view of `serialize`. -/
def concatVals (ts : List Token) : List Char :=
  ts.foldr (fun t acc => t.value.data ++ acc) []

theorem serialize_data (ts : List Token) : (serialize ts).data = concatVals ts := by
  induction ts with
  | nil => rfl
  | cons t ts ih =>
      show (t.value ++ serialize ts).data = t.value.data ++ concatVals ts
      rw [← ih]
      rfl

theorem matchExpOpt_append (cs : List Char) :
    (matchExpOpt cs).1 ++ (matchExpOpt cs).2 = cs := by
  unfold matchExpOpt
  match cs with
  | [] => rfl
  | c :: r =>
    simp only
    split
    · match r with
      | [] => rfl
      | s :: r2 =>
        simp only
        split
        · split
          · rfl
          · simp [twdw]
        · split
          · rfl
          · simp [twdw]
    · rfl

theorem matchComment_spec (cs t r : List Char) (h : matchComment cs = some (t, r)) :
    t ++ r = cs ∧ t ≠ [] := by
  unfold matchComment at h
  match cs, h with
  | a :: b :: rest, h =>
    simp only at h
    split at h
    · simp only [Option.some.injEq, Prod.mk.injEq] at h
      obtain ⟨ht, hr⟩ := h
      subst ht; subst hr
      simp [twdw]
    · exact absurd h (by simp)

theorem matchWs_spec (cs t r : List Char) (h : matchWs cs = some (t, r)) :
    t ++ r = cs ∧ t ≠ [] := by
  unfold matchWs at h
  split at h
  · exact absurd h (by simp)
  · simp only [Option.some.injEq, Prod.mk.injEq] at h
    obtain ⟨ht, hr⟩ := h
    subst ht; subst hr
    exact ⟨twdw _ _, by assumption⟩

theorem matchHex_spec (cs t r : List Char) (h : matchHex cs = some (t, r)) :
    t ++ r = cs ∧ t ≠ [] := by
  unfold matchHex at h
  match cs, h with
  | a :: b :: rest, h =>
    simp only at h
    split at h
    · simp only [Option.some.injEq, Prod.mk.injEq] at h
      obtain ⟨ht, hr⟩ := h
      subst ht; subst hr
      simp [twdw]
    · exact absurd h (by simp)

theorem matchNumAlt2_spec (cs t r : List Char) (h : matchNumAlt2 cs = some (t, r)) :
    t ++ r = cs ∧ t ≠ [] := by
  unfold matchNumAlt2 at h
  split at h
  · exact absurd h (by simp)
  · rename_i hd1
    cases hdw : cs.dropWhile Char.isDigit with
    | nil => rw [hdw] at h; exact absurd h (by simp)
    | cons c r2 =>
      rw [hdw] at h
      simp only at h
      split at h
      · split at h
        · exact absurd h (by simp)
        · simp only [Option.some.injEq, Prod.mk.injEq] at h
          obtain ⟨ht, hr⟩ := h
          subst ht; subst hr
          constructor
          · have e1 := matchExpOpt_append (r2.dropWhile Char.isDigit)
            have e3 : cs.takeWhile Char.isDigit ++ c :: r2 = cs := by
              rw [← hdw]; exact twdw _ _
            simp only [List.append_assoc, List.cons_append]
            rw [e1, twdw]
            exact e3
          · simp [hd1]
      · exact absurd h (by simp)

theorem matchNumAlt3_spec (cs t r : List Char) (h : matchNumAlt3 cs = some (t, r)) :
    t ++ r = cs ∧ t ≠ [] := by
  unfold matchNumAlt3 at h
  split at h
  · exact absurd h (by simp)
  · rename_i hd1
    cases hdw : cs.dropWhile Char.isDigit with
    | nil => rw [hdw] at h; exact absurd h (by simp)
    | cons c r2 =>
      rw [hdw] at h
      simp only at h
      split at h
      · have key : cs.takeWhile Char.isDigit ++ [c] ++ r2 = cs := by
          have h0 : cs.takeWhile Char.isDigit ++ c :: r2 = cs := by
            rw [← hdw]; exact twdw _ _
          simpa using h0
        cases r2 with
        | nil =>
          simp only [Option.some.injEq, Prod.mk.injEq] at h
          obtain ⟨ht, hr⟩ := h
          subst ht; subst hr
          exact ⟨by simpa using key, by simp [hd1]⟩
        | cons d r3 =>
          simp only at h
          split at h
          · exact absurd h (by simp)
          · simp only [Option.some.injEq, Prod.mk.injEq] at h
            obtain ⟨ht, hr⟩ := h
            subst ht; subst hr
            exact ⟨key, by simp [hd1]⟩
      · exact absurd h (by simp)

theorem matchNumAlt4_spec (cs t r : List Char) (h : matchNumAlt4 cs = some (t, r)) :
    t ++ r = cs ∧ t ≠ [] := by
  unfold matchNumAlt4 at h
  match cs, h with
  | c :: rest, h =>
    simp only at h
    split at h
    · split at h
      · exact absurd h (by simp)
      · simp only [Option.some.injEq, Prod.mk.injEq] at h
        obtain ⟨ht, hr⟩ := h
        subst ht; subst hr
        constructor
        · have e1 := matchExpOpt_append (rest.dropWhile Char.isDigit)
          have : rest.takeWhile Char.isDigit ++
              (matchExpOpt (rest.dropWhile Char.isDigit)).1 ++
              (matchExpOpt (rest.dropWhile Char.isDigit)).2 = rest := by
            rw [List.append_assoc, e1]; exact twdw _ _
          simpa [List.append_assoc] using congrArg (c :: ·) this
        · simp
    · exact absurd h (by simp)

theorem matchNumAlt5_spec (cs t r : List Char) (h : matchNumAlt5 cs = some (t, r)) :
    t ++ r = cs ∧ t ≠ [] := by
  unfold matchNumAlt5 at h
  split at h
  · exact absurd h (by simp)
  · rename_i hd1
    have key : cs.takeWhile Char.isDigit ++ cs.dropWhile Char.isDigit = cs :=
      twdw _ _
    cases hdw : cs.dropWhile Char.isDigit with
    | nil =>
      rw [hdw] at h
      simp only [Option.some.injEq, Prod.mk.injEq] at h
      obtain ⟨ht, hr⟩ := h
      subst ht; subst hr
      rw [hdw] at key
      exact ⟨by simpa using key, hd1⟩
    | cons c r2 =>
      rw [hdw] at h
      simp only at h
      rw [hdw] at key
      split at h
      · simp only [Option.some.injEq, Prod.mk.injEq] at h
        obtain ⟨ht, hr⟩ := h
        subst ht; subst hr
        exact ⟨by simpa using key, by simp [hd1]⟩
      · simp only [Option.some.injEq, Prod.mk.injEq] at h
        obtain ⟨ht, hr⟩ := h
        subst ht; subst hr
        exact ⟨key, hd1⟩

theorem matchNumber_spec (cs t r : List Char) (h : matchNumber cs = some (t, r)) :
    t ++ r = cs ∧ t ≠ [] := by
  unfold matchNumber at h
  split at h
  · rename_i x heq
    cases h
    exact matchHex_spec cs _ _ heq
  · split at h
    · rename_i x heq
      cases h
      exact matchNumAlt2_spec cs _ _ heq
    · split at h
      · rename_i x heq
        cases h
        exact matchNumAlt3_spec cs _ _ heq
      · split at h
        · rename_i x heq
          cases h
          exact matchNumAlt4_spec cs _ _ heq
        · exact matchNumAlt5_spec cs t r h

theorem matchIdent_spec (cs t r : List Char) (h : matchIdent cs = some (t, r)) :
    t ++ r = cs ∧ t ≠ [] := by
  unfold matchIdent at h
  match cs, h with
  | c :: rest, h =>
    simp only at h
    split at h
    · simp only [Option.some.injEq, Prod.mk.injEq] at h
      obtain ⟨ht, hr⟩ := h
      subst ht; subst hr
      simp [twdw]
    · exact absurd h (by simp)

theorem matchPunctMulti_spec (cs t r : List Char) (h : matchPunctMulti cs = some (t, r)) :
    t ++ r = cs ∧ t ≠ [] := by
  unfold matchPunctMulti at h
  match cs, h with
  | a :: b :: rest, h =>
    simp only at h
    split at h
    · simp only [Option.some.injEq, Prod.mk.injEq] at h
      obtain ⟨ht, hr⟩ := h
      subst ht; subst hr
      simp
    · exact absurd h (by simp)

theorem matchPunctSingle_spec (cs t r : List Char) (h : matchPunctSingle cs = some (t, r)) :
    t ++ r = cs ∧ t ≠ [] := by
  unfold matchPunctSingle at h
  match cs, h with
  | c :: rest, h =>
    simp only at h
    split at h
    · simp only [Option.some.injEq, Prod.mk.injEq] at h
      obtain ⟨ht, hr⟩ := h
      subst ht; subst hr
      simp
    · exact absurd h (by simp)

theorem firstMatch_spec (cs : List Char) (ty : TokenType) (t r : List Char)
    (h : firstMatch cs = some (ty, t, r)) : t ++ r = cs ∧ t ≠ [] := by
  unfold firstMatch at h
  split at h
  · rename_i x heq; cases h; exact matchComment_spec cs _ _ heq
  · split at h
    · rename_i x heq; cases h; exact matchWs_spec cs _ _ heq
    · split at h
      · rename_i x heq; cases h; exact matchNumber_spec cs _ _ heq
      · split at h
        · rename_i x heq; cases h; exact matchIdent_spec cs _ _ heq
        · split at h
          · rename_i x heq; cases h
            exact matchPunctMulti_spec cs _ _ heq
          · split at h
            · rename_i x heq; cases h
              exact matchPunctSingle_spec cs _ _ heq
            · exact absurd h (by simp)

theorem tokenizeFuel_concat (fuel : Nat) :
    ∀ cs : List Char, ∀ idx : Int, cs.length ≤ fuel →
      concatVals (tokenizeFuel fuel cs idx) = cs := by
  induction fuel with
  | zero =>
      intro cs idx h
      have : cs = [] := List.eq_nil_of_length_eq_zero (Nat.le_zero.mp h)
      subst this; rfl
  | succ fuel ih =>
      intro cs idx h
      match cs with
      | [] => rfl
      | c :: cs' =>
        show concatVals (tokenizeFuel (fuel + 1) (c :: cs') idx) = c :: cs'
        rw [tokenizeFuel]
        cases hfm : firstMatch (c :: cs') with
        | some x =>
          obtain ⟨ty, t, r⟩ := x
          obtain ⟨happ, hne⟩ := firstMatch_spec (c :: cs') ty t r hfm
          have hlen : r.length ≤ fuel := by
            have h1 : t.length + r.length = cs'.length + 1 := by
              have := congrArg List.length happ
              simpa using this
            have h2 : 1 ≤ t.length := by
              cases t with
              | nil => exact absurd rfl hne
              | cons _ _ => simp
            have h3 : cs'.length + 1 ≤ fuel + 1 := by simpa using h
            omega
          show (⟨t⟩ : String).data ++ concatVals (tokenizeFuel fuel r (idx + t.length)) = c :: cs'
          rw [ih r _ hlen]
          exact happ
        | none =>
          show (⟨[c]⟩ : String).data ++ concatVals (tokenizeFuel fuel cs' (idx + 1)) = c :: cs'
          rw [ih cs' _ (by simpa using Nat.le_of_succ_le_succ h)]
          rfl

/-- Helper round-trip fact, shared by several later proofs. -/
theorem serialize_tokenize (s : String) : serialize (tokenize s) = s := by
  have h := tokenizeFuel_concat s.data.length s.data 0 (le_refl _)
  have hd : (serialize (tokenize s)).data = s.data := by
    rw [serialize_data]; exact h
  cases s with
  | mk data =>
      cases hq : serialize (tokenize ⟨data⟩) with
      | mk data2 =>
          congr 1
          have := hd
          rw [hq] at this
          exact this

/-- C1: For every source string T, concatenating the text of every token of
`tokenize(T)` in order reproduces T exactly (lossless round-trip before any
mutation). -/
theorem tokenize_roundtrip (s : String) : serialize (tokenize s) = s :=
  serialize_tokenize s

/-! ## Random source and numeric helpers -/

/-- A stream of `Math.random()` draws.  Real draws lie in `[0, 1)`. -/
def ValidRng (g : ℕ → ℚ) : Prop := ∀ n, 0 ≤ g n ∧ g n < 1

def OPS : List String := ["+", "-", "*", "/"]

def SAFE_BUILTINS : List String :=
  ["sin", "cos", "tan", "abs", "floor", "ceil", "fract", "sqrt",
   "f_sin", "f_cos", "f_n", "f_hash", "length"]

/-- `randFloat(min, max)`; `d` is the consumed `Math.random()` draw. -/
def randFloat (lo hi : ℚ) (d : ℚ) : ℚ := lo + d * (hi - lo)

/-- `getRandomItem(arr)`; `d` is the consumed draw.  For a draw outside
`[0, 1)` the JS indexing is out of range and yields `undefined` (which the
call sites would interpolate as the text "undefined"). -/
def getRandomItem (arr : List String) (d : ℚ) : String :=
  if h : 0 ≤ ⌊d * arr.length⌋ ∧ (⌊d * arr.length⌋).toNat < arr.length then
    arr.get ⟨(⌊d * arr.length⌋).toNat, h.2⟩
  else "undefined"

def digitChar (n : ℕ) : Char := Char.ofNat (48 + n)

/-- Decimal digits of `n`, most significant first.  The fuel argument only
serves structural recursion; `n + 1` iterations always suffice. -/
def natDigits (fuel n : ℕ) : List Char :=
  match fuel with
  | 0 => []
  | fuel + 1 =>
    if n < 10 then [digitChar n]
    else natDigits fuel (n / 10) ++ [digitChar (n % 10)]

def natToStr (n : ℕ) : String := ⟨natDigits (n + 1) n⟩

def padZeros (d : ℕ) (s : String) : String :=
  ⟨List.replicate (d - s.data.length) '0'⟩ ++ s

/-- `Number.prototype.toFixed(d)` on the exact-rational model: the sign is
split off first, the magnitude is rounded to the closest multiple of
`10^-d` (ties toward the larger magnitude), and the result is rendered
with exactly `d` fractional digits. -/
def toFixedQ (d : ℕ) (q : ℚ) : String :=
  (if q < 0 then "-" else "") ++
  (if d = 0 then natToStr (⌊|q| * 10 ^ d + 1 / 2⌋).toNat
   else natToStr ((⌊|q| * 10 ^ d + 1 / 2⌋).toNat / 10 ^ d) ++ "." ++
        padZeros d (natToStr ((⌊|q| * 10 ^ d + 1 / 2⌋).toNat % 10 ^ d)))

def digitsToNat (l : List Char) : ℕ :=
  l.foldl (fun acc c => 10 * acc + (c.toNat - 48)) 0

/-- The signed exponent digits after `e`/`E` in `parseFloat` input. -/
def parseFloatExp (cs : List Char) : Int :=
  match cs with
  | c :: r =>
    if c = '+' then
      if r.takeWhile Char.isDigit = [] then 0
      else (digitsToNat (r.takeWhile Char.isDigit) : Int)
    else if c = '-' then
      if r.takeWhile Char.isDigit = [] then 0
      else -(digitsToNat (r.takeWhile Char.isDigit) : Int)
    else
      if cs.takeWhile Char.isDigit = [] then 0
      else (digitsToNat (cs.takeWhile Char.isDigit) : Int)
  | [] => 0

/-- The optional exponent clause after the mantissa. -/
def expPart (cs : List Char) : Int :=
  match cs with
  | c :: r => if c = 'e' ∨ c = 'E' then parseFloatExp r else 0
  | [] => 0

/-- The fraction digits after an optional decimal point. -/
def fracDigits (cs : List Char) : List Char :=
  match cs with
  | c :: r => if c = '.' then r.takeWhile Char.isDigit else []
  | [] => []

/-- What remains after the optional decimal point and fraction digits. -/
def afterFrac (cs : List Char) : List Char :=
  match cs with
  | c :: r => if c = '.' then r.dropWhile Char.isDigit else cs
  | [] => []

def parseFloatMag (sgn : ℚ) (cs : List Char) : Option ℚ :=
  if cs.takeWhile Char.isDigit = [] ∧ fracDigits (cs.dropWhile Char.isDigit) = [] then
    none
  else
    some (sgn * ((digitsToNat (cs.takeWhile Char.isDigit) : ℚ) +
           (digitsToNat (fracDigits (cs.dropWhile Char.isDigit)) : ℚ) /
             10 ^ (fracDigits (cs.dropWhile Char.isDigit)).length) *
          10 ^ expPart (afterFrac (cs.dropWhile Char.isDigit)))

def parseFloatAfterWs (cs : List Char) : Option ℚ :=
  match cs with
  | '+' :: r => parseFloatMag 1 r
  | '-' :: r => parseFloatMag (-1) r
  | r => parseFloatMag 1 r

/-- JS `parseFloat` (on the exact-rational model): skips leading
whitespace, reads an optional sign, integer digits, an optional fraction
and an optional exponent, ignores trailing junk, and is `none` (NaN) when
no digits were found. -/
def parseFloatQ (s : String) : Option ℚ :=
  parseFloatAfterWs (s.data.dropWhile isJsWs)

/-- `[arr[i], arr[j]] = [arr[j], arr[i]]` (identity for an out-of-range
index, which only an invalid draw can produce). -/
def listSwap (l : List Char) (i j : ℕ) : List Char :=
  match l.get? i, l.get? j with
  | some a, some b => (l.set i b).set j a
  | _, _ => l

/-- The Fisher–Yates loop of `shuffleString`, from index `i` down to 1. -/
def fyLoop (l : List Char) (i : ℕ) (g : ℕ → ℚ) (n : ℕ) : List Char × ℕ :=
  match i with
  | 0 => (l, n)
  | i' + 1 =>
      fyLoop (listSwap l (i' + 1) (⌊g n * (i' + 1 + 1)⌋).toNat) i' g (n + 1)

def shuffleString (s : String) (g : ℕ → ℚ) (n : ℕ) : String × ℕ :=
  let r := fyLoop s.data (s.data.length - 1) g n
  (⟨r.1⟩, r.2)

/-! ## Atomic mutation passes (Numbers, Operators, Builtins) -/

/-- Sequential traversal underlying the three `tokens.map(...)` passes. -/
def mapPass (step : Token → ℚ → (ℕ → ℚ) → ℕ → Token × ℕ) :
    List Token → ℚ → (ℕ → ℚ) → ℕ → List Token × ℕ
  | [], _, _, n => ([], n)
  | t :: ts, intensity, g, n =>
    let s := step t intensity g n
    let r := mapPass step ts intensity g s.2
    (s.1 :: r.1, r.2)

/-- `|newVal| < 0.001` normalizes to `'0.0'`, else `newVal.toFixed(3)`. -/
def numRender (v : ℚ) : String :=
  if |v| < 1 / 1000 then "0.0" else toFixedQ 3 v

def mutateNumbersStep (t : Token) (intensity : ℚ) (g : ℕ → ℚ) (n : ℕ) : Token × ℕ :=
  if t.type = TokenType.number ∧ t.value.data.contains '.' then
    if g n < intensity then
      match parseFloatQ t.value with
      | some val =>
        if g (n + 1) < 1 / 2 then
          ({ t with value := numRender (val + (g (n + 2) - 1 / 2)) }, n + 3)
        else
          ({ t with value := numRender (val * (1 / 2 + g (n + 2))) }, n + 3)
      | none => (t, n + 1)
    else (t, n + 1)
  else (t, n)

def mutateNumbers (ts : List Token) (intensity : ℚ) (g : ℕ → ℚ) (n : ℕ) :
    List Token × ℕ :=
  mapPass mutateNumbersStep ts intensity g n

/-! ### The Numbers pass on classified doubles

`parseFloatQ`/`toFixedQ` keep JS numbers as exact rationals; that erases
`parseFloat`'s overflow to `Infinity` and `toFixed`'s behaviour on
non-finite input and on magnitudes at or above `10^21`.  The following
refinement restores those paths: a value is classified as finite (kept
exact rather than rounded to 53 bits), infinite, or NaN. -/

/-- A JS number as seen by the Numbers pass: finite (exact), `±Infinity`,
or `NaN`. -/
inductive JsNum where
  | fin (q : ℚ)
  | posInf
  | negInf
  | nan

/-- The smallest magnitude that IEEE-754 round-to-nearest sends to
`Infinity`: the midpoint above the largest finite double,
`2^1024 - 2^970` (computed in `ℕ` and cast). -/
def jsOverflow : ℚ := ((2 ^ 1024 - 2 ^ 970 : ℕ) : ℚ)

/-- An exact result classified as a double: magnitudes reaching
`jsOverflow` become the infinities, everything below stays finite. -/
def jsOfRat (q : ℚ) : JsNum :=
  if jsOverflow ≤ q then JsNum.posInf
  else if q ≤ -jsOverflow then JsNum.negInf
  else JsNum.fin q

/-- JS `parseFloat` with overflow: the exact parsed value classified as a
double, `NaN` when no digits were found. -/
def jsParseFloat (s : String) : JsNum :=
  match parseFloatQ s with
  | some q => jsOfRat q
  | none => JsNum.nan

/-- `v + d` for a finite rational `d`. -/
def jsAdd (v : JsNum) (d : ℚ) : JsNum :=
  match v with
  | JsNum.fin q => jsOfRat (q + d)
  | JsNum.posInf => JsNum.posInf
  | JsNum.negInf => JsNum.negInf
  | JsNum.nan => JsNum.nan

/-- `v * s` for a finite rational `s`. -/
def jsMul (v : JsNum) (s : ℚ) : JsNum :=
  match v with
  | JsNum.fin q => jsOfRat (q * s)
  | JsNum.posInf =>
      if 0 < s then JsNum.posInf else if s < 0 then JsNum.negInf else JsNum.nan
  | JsNum.negInf =>
      if 0 < s then JsNum.negInf else if s < 0 then JsNum.posInf else JsNum.nan
  | JsNum.nan => JsNum.nan

/-- `isNaN(v)`. -/
def jsIsNaN (v : JsNum) : Bool :=
  match v with
  | JsNum.nan => true
  | _ => false

/-- `Math.abs(v) < 0.001`; every comparison against `NaN` is false, and
so is this one for the infinities. -/
def jsAbsLtMilli (v : JsNum) : Bool :=
  match v with
  | JsNum.fin q => |q| < 1 / 1000
  | _ => false

/-- The `d.ddd` part of exponential `ToString` output for the integer
`m`: its digits, pointed after the first one, trailing zeros dropped.
(Real JS prints the shortest digit string that rounds back to the
double; with finite values kept exact, the exact digits stand in.) -/
def expMantissa (m : ℕ) : String :=
  match (natToStr m).data with
  | [] => "0"
  | c :: r =>
    match (r.reverse.dropWhile (fun c2 => c2 = '0')).reverse with
    | [] => ⟨[c]⟩
    | r' => ⟨c :: '.' :: r'⟩

/-- `ToString` of a double whose magnitude is at least `10^21`:
exponential notation.  Every double of that magnitude is an integer, so
on the reachable values the floor below is exact. -/
def jsLargeToString (q : ℚ) : String :=
  (if q < 0 then "-" else "") ++
  expMantissa (⌊|q|⌋).toNat ++ "e+" ++
  natToStr ((natToStr (⌊|q|⌋).toNat).length - 1)

/-- `v.toFixed(3)` per ECMA-262: `"NaN"` on NaN; on magnitudes at or
above `10^21` it falls back to `ToString`, which also renders the
infinities as `Infinity`/`-Infinity`; otherwise the plain 3-fraction
decimal. -/
def jsToFixed3 (v : JsNum) : String :=
  match v with
  | JsNum.nan => "NaN"
  | JsNum.posInf => "Infinity"
  | JsNum.negInf => "-Infinity"
  | JsNum.fin q => if 10 ^ 21 ≤ |q| then jsLargeToString q else toFixedQ 3 q

/-- The pass's rendering `Math.abs(newVal) < 0.001 ? '0.0' :
newVal.toFixed(3)`, on classified doubles. -/
def jsNumRender (v : JsNum) : String :=
  if jsAbsLtMilli v then "0.0" else jsToFixed3 v

/-- `mutateNumbers`' per-token body on classified doubles: identical to
`mutateNumbersStep` except that parsing, perturbing and rendering keep
the overflow and non-finite paths of JS numbers. -/
def mutateNumbersStepJs (t : Token) (intensity : ℚ) (g : ℕ → ℚ) (n : ℕ) :
    Token × ℕ :=
  if t.type = TokenType.number ∧ t.value.data.contains '.' then
    if g n < intensity then
      if jsIsNaN (jsParseFloat t.value) = false then
        if g (n + 1) < 1 / 2 then
          ({ t with
             value := jsNumRender (jsAdd (jsParseFloat t.value) (g (n + 2) - 1 / 2)) },
           n + 3)
        else
          ({ t with
             value := jsNumRender (jsMul (jsParseFloat t.value) (1 / 2 + g (n + 2))) },
           n + 3)
      else (t, n + 1)
    else (t, n + 1)
  else (t, n)

/-- The Numbers pass on classified doubles. -/
def mutateNumbersJs (ts : List Token) (intensity : ℚ) (g : ℕ → ℚ) (n : ℕ) :
    List Token × ℕ :=
  mapPass mutateNumbersStepJs ts intensity g n

def mutateOperatorsStep (t : Token) (intensity : ℚ) (g : ℕ → ℚ) (n : ℕ) : Token × ℕ :=
  if t.type = TokenType.punct ∧ t.value ∈ OPS then
    if g n < intensity then ({ t with value := getRandomItem OPS (g (n + 1)) }, n + 2)
    else (t, n + 1)
  else (t, n)

def mutateOperators (ts : List Token) (intensity : ℚ) (g : ℕ → ℚ) (n : ℕ) :
    List Token × ℕ :=
  mapPass mutateOperatorsStep ts intensity g n

def mutateBuiltinsStep (t : Token) (intensity : ℚ) (g : ℕ → ℚ) (n : ℕ) : Token × ℕ :=
  if t.type = TokenType.ident ∧ t.value ∈ SAFE_BUILTINS then
    if g n < intensity then
      ({ t with value := getRandomItem SAFE_BUILTINS (g (n + 1)) }, n + 2)
    else (t, n + 1)
  else (t, n)

def mutateBuiltins (ts : List Token) (intensity : ℚ) (g : ℕ → ℚ) (n : ℕ) :
    List Token × ℕ :=
  mapPass mutateBuiltinsStep ts intensity g n

/-! ## Anchor locators -/

/-- `while (j < tokens.length && tokens[j].type === 'whitespace') j++`
(fueled for structural recursion; the length of the list suffices). -/
def skipWsIdx (fuel : ℕ) (ts : List Token) (j : ℕ) : ℕ :=
  match fuel with
  | 0 => j
  | fuel + 1 =>
    match ts.get? j with
    | some t => if t.type = TokenType.whitespace then skipWsIdx fuel ts (j + 1) else j
    | none => j

def skipWs (ts : List Token) (j : ℕ) : ℕ := skipWsIdx ts.length ts j

/-- First index `≥ i` whose token satisfies `p` (`-1` becomes `none`);
fueled for structural recursion. -/
def findFromIdx (p : Token → Bool) (ts : List Token) (fuel i : ℕ) : Option ℕ :=
  match fuel with
  | 0 => none
  | fuel + 1 =>
    match ts.get? i with
    | some t => if p t then some i else findFromIdx p ts fuel (i + 1)
    | none => none

def findFrom (p : Token → Bool) (ts : List Token) (i : ℕ) : Option ℕ :=
  findFromIdx p ts ts.length i

/-- Backwards scan from index `i` down to 0 (`for (i = len-1; i >= 0; i--)`). -/
def findLastFrom (p : Token → Bool) (ts : List Token) (i : ℕ) : Option ℕ :=
  match ts.get? i with
  | some t =>
    if p t then some i
    else (match i with | 0 => none | i' + 1 => findLastFrom p ts i')
  | none => (match i with | 0 => none | i' + 1 => findLastFrom p ts i')

def isReturnTok (t : Token) : Bool :=
  t.type == TokenType.ident && t.value == "return"

/-- `while (j < tokens.length && tokens[j].value !== v) j++` (fueled). -/
def skipToValIdx (v : String) (ts : List Token) (fuel j : ℕ) : ℕ :=
  match fuel with
  | 0 => j
  | fuel + 1 =>
    match ts.get? j with
    | some t => if t.value = v then j else skipToValIdx v ts fuel (j + 1)
    | none => j

def skipToVal (v : String) (ts : List Token) (j : ℕ) : ℕ :=
  skipToValIdx v ts ts.length j

/-- The `fn` … `main` search shared by `mutateGeometry` and
`mutateStructure` (their identical inline loops); fueled. -/
def findMainIdx (ts : List Token) (fuel i : ℕ) : Option ℕ :=
  match fuel with
  | 0 => none
  | fuel + 1 =>
    if i < ts.length - 1 then
      match ts.get? i with
      | some t =>
        if t.type = TokenType.ident ∧ t.value = "fn" then
          (match ts.get? (skipWs ts (i + 1)) with
           | some tj =>
               if tj.value = "main" then some i else findMainIdx ts fuel (i + 1)
           | none => findMainIdx ts fuel (i + 1))
        else findMainIdx ts fuel (i + 1)
      | none => none
    else none

def findMainFrom (ts : List Token) (i : ℕ) : Option ℕ :=
  findMainIdx ts ts.length i

/-- The `location`-annotation loop of `findUVName`: scans from `i`, stops
at `)`, and on `location` jumps past the matching `)` and whitespace to an
identifier; fueled. -/
def findUVLocIdx (ts : List Token) (fuel i : ℕ) : Option String :=
  match fuel with
  | 0 => none
  | fuel + 1 =>
    match ts.get? i with
    | some t =>
      if t.value = ")" then none
      else if t.value = "location" then
        (match ts.get? (skipWs ts (skipToVal ")" ts (i + 1) + 1)) with
         | some tj =>
             if tj.type = TokenType.ident then some tj.value
             else findUVLocIdx ts fuel (i + 1)
         | none => findUVLocIdx ts fuel (i + 1))
      else findUVLocIdx ts fuel (i + 1)
    | none => none

def findUVLoc (ts : List Token) (i : ℕ) : Option String :=
  findUVLocIdx ts ts.length i

/-- The fallback loop of `findUVName`: a parameter literally named `uv`;
fueled. -/
def findUVFallbackIdx (ts : List Token) (fuel i : ℕ) : Option String :=
  match fuel with
  | 0 => none
  | fuel + 1 =>
    match ts.get? i with
    | some t =>
      if t.value = ")" then none
      else if t.value = "uv" then some "uv"
      else findUVFallbackIdx ts fuel (i + 1)
    | none => none

def findUVFallback (ts : List Token) (i : ℕ) : Option String :=
  findUVFallbackIdx ts ts.length i

/-- `findUVName(tokens, mainIdx)`; `none` means no `(` was found (JS
`null`), and `some ""` is the falsy empty name the caller also rejects. -/
def findUVName (ts : List Token) (mainIdx : ℕ) : Option String :=
  match findFrom (fun t => t.value == "(") ts mainIdx with
  | none => none
  | some argsStart =>
    match findUVLoc ts argsStart with
    | some u => some u
    | none =>
      match findUVFallback ts argsStart with
      | some u => some u
      | none => some ""

/-! ## Geometry pass -/

/-- The `prev` scan of the rename loop: skip whitespace leftwards, then
test whether a `.` precedes (member position). -/
def prevScanDot (l : List Token) (p : ℕ) : Bool :=
  match l.get? p with
  | some t =>
    if t.type = TokenType.whitespace then
      (match p with | 0 => false | p' + 1 => prevScanDot l p')
    else t.value = "."
  | none => false

/-- The guard `prev >= 0 && newTokens[prev].value === "."` of the rename
loop: at position 0 there is no previous token. -/
def prevDotTest (l : List Token) (i : ℕ) : Bool :=
  match i with | 0 => false | i' + 1 => prevScanDot l i'

/-- The `next` scan of the rename loop: skip whitespace rightwards, then
test whether a `:` follows (declaration position); fueled. -/
def nextScanColonIdx (l : List Token) (fuel p : ℕ) : Bool :=
  match fuel with
  | 0 => false
  | fuel + 1 =>
    match l.get? p with
    | some t =>
      if t.type = TokenType.whitespace then nextScanColonIdx l fuel (p + 1)
      else t.value = ":"
    | none => false

def nextScanColon (l : List Token) (p : ℕ) : Bool :=
  nextScanColonIdx l l.length p

/-- The in-place rename loop of `mutateGeometry`, from index `i` to the
end; fueled (the list length suffices since `set` preserves it). -/
def renameLoopIdx (fuel : ℕ) (l : List Token) (i : ℕ) (oldName newName : String) :
    List Token :=
  match fuel with
  | 0 => l
  | fuel + 1 =>
    match l.get? i with
    | some t =>
      if t.type = TokenType.ident ∧ t.value = oldName then
        if prevDotTest l i then
          renameLoopIdx fuel l (i + 1) oldName newName
        else if nextScanColon l (i + 1) then
          renameLoopIdx fuel l (i + 1) oldName newName
        else
          renameLoopIdx fuel (l.set i { t with value := newName }) (i + 1)
            oldName newName
      else renameLoopIdx fuel l (i + 1) oldName newName
    | none => l

def renameLoop (l : List Token) (i : ℕ) (oldName newName : String) : List Token :=
  renameLoopIdx l.length l i oldName newName

/-- The five geometry rebinding templates, in source order. -/
def geometryTemplates (mutVar uvName : String) (d1 d2 d3 : ℚ) : List String :=
  ["var " ++ mutVar ++ " = f_rot(" ++ uvName ++ ", time * " ++
     toFixedQ 2 (randFloat (-(1/2)) (1/2) d1) ++ ");",
   "var " ++ mutVar ++ " = " ++ uvName ++ " * " ++
     toFixedQ 2 (randFloat (1/2) 2 d2) ++ " + vec2<f32>(sin(time), cos(time)) * 0.1;",
   "var " ++ mutVar ++ " = abs(" ++ uvName ++ " * 2.0 - 1.0);",
   "var " ++ mutVar ++ " = fract(" ++ uvName ++ " * " ++
     toFixedQ 2 (randFloat 2 5 d3) ++ ");",
   "var " ++ mutVar ++ " = " ++ uvName ++ " + vec2<f32>(f_n(" ++ uvName ++
     ".x*10.0), f_n(" ++ uvName ++ ".y*10.0))*0.05;"]

/-- The injection and renaming tail of `mutateGeometry`, once all anchors
are found. -/
def geometryInject (ts : List Token) (uvName : String) (bodyStart : ℕ)
    (g : ℕ → ℚ) (n : ℕ) : List Token × ℕ :=
  let mutVar := uvName ++ "_geo_" ++ natToStr (⌊g n * 100000⌋).toNat
  let injectionTokens :=
    tokenize (getRandomItem (geometryTemplates mutVar uvName (g (n+1)) (g (n+2)) (g (n+3))) (g (n+4)))
  let injected := ts.take (bodyStart + 1) ++
      (⟨TokenType.whitespace, "\n    ", -1⟩ :: injectionTokens ++
       [⟨TokenType.punct, ";", -1⟩]) ++
      ts.drop (bodyStart + 1)
  (renameLoop injected (bodyStart + 1 + injectionTokens.length + 2) uvName mutVar, n + 5)

def mutateGeometry (ts : List Token) (intensity : ℚ) (g : ℕ → ℚ) (n : ℕ) :
    List Token × ℕ :=
  match findMainFrom ts 0 with
  | none => (ts, n)
  | some mainIdx =>
    match findUVName ts mainIdx with
    | none => (ts, n)
    | some uvName =>
      if uvName = "" then (ts, n)
      else
        match findFrom (fun t => t.value == "(") ts mainIdx with
        | none => (ts, n)
        | some argsStart =>
          match findFrom (fun t => t.value == "\x7b") ts argsStart with
          | none => (ts, n)
          | some bodyStart => geometryInject ts uvName bodyStart g n

/-- The part of a token that the member-access scan of the rename loop can
observe: whether it is whitespace, and whether its text is `.`. -/
def tokObs (t : Token) : Bool × Bool :=
  (decide (t.type = TokenType.whitespace), decide (t.value = "."))

/-- Declarative form of the rename condition of `mutateGeometry`, on a
fixed list: an identifier spelled `oldName` that is not a member-access
receiver (nearest non-whitespace token to the left is `.`) and not a
declaration (nearest non-whitespace token to the right is `:`). -/
def shouldRename (l : List Token) (i : ℕ) (oldName : String) : Bool :=
  match l.get? i with
  | some t =>
    decide (t.type = TokenType.ident ∧ t.value = oldName) &&
    !prevDotTest l i &&
    !nextScanColon l (i + 1)
  | none => false

/-! ## Color pass -/

/-- `if ('(') balance++; if (')') balance--` for one token. -/
def colorNewBal (t : Token) (balance : Int) : Int :=
  (if t.value = "(" then balance + 1 else balance) -
  (if t.value = ")" then 1 else 0)

/-- The balanced-parenthesis literal-perturbation loop of `mutateColor`;
fueled (the list length suffices since `set` preserves it). -/
def colorInner (fuel : ℕ) (l : List Token) (j : ℕ) (balance : Int)
    (intensity : ℚ) (g : ℕ → ℚ) (n : ℕ) : List Token × ℕ :=
  match fuel with
  | 0 => (l, n)
  | fuel + 1 =>
    match l.get? j with
    | some t =>
      if 0 < balance then
        if 0 < colorNewBal t balance ∧ t.type = TokenType.number ∧
           t.value.data.contains '.' then
          if g n < intensity then
            match parseFloatQ t.value with
            | some val =>
              colorInner fuel
                (l.set j { t with
                           value := toFixedQ 2 (val + (g (n+1) - 1/2) * intensity * 2) })
                (j + 1) (colorNewBal t balance) intensity g (n + 2)
            | none =>
              colorInner fuel (l.set j { t with value := "NaN" })
                (j + 1) (colorNewBal t balance) intensity g (n + 2)
          else colorInner fuel l (j + 1) (colorNewBal t balance) intensity g (n + 1)
        else colorInner fuel l (j + 1) (colorNewBal t balance) intensity g n
      else (l, n)
    | none => (l, n)

/-- The pointer advance of `mutateColor` past whitespace and an optional
generic clause `<...>`. -/
def skipWsGt (l : List Token) (p : ℕ) : ℕ :=
  match l.get? p with
  | some t => if t.value = "<" then skipWs l (skipToVal ">" l p + 1) else p
  | none => p

def colorPtr (l : List Token) (i : ℕ) : ℕ :=
  skipWsGt l (skipWs l (i + 1))

/-- The outer `vec3`/`vec4` scan of `mutateColor`; fueled. -/
def colorOuter (fuel : ℕ) (l : List Token) (i : ℕ) (intensity : ℚ)
    (g : ℕ → ℚ) (n : ℕ) : List Token × ℕ :=
  match fuel with
  | 0 => (l, n)
  | fuel + 1 =>
    match l.get? i with
    | some t =>
      if t.type = TokenType.ident ∧ (t.value = "vec3" ∨ t.value = "vec4") then
        match l.get? (colorPtr l i) with
        | some tp =>
          if tp.value = "(" then
            colorOuter fuel
              (colorInner l.length l (colorPtr l i + 1) 1 intensity g n).1 (i + 1)
              intensity g
              (colorInner l.length l (colorPtr l i + 1) 1 intensity g n).2
          else colorOuter fuel l (i + 1) intensity g n
        | none => colorOuter fuel l (i + 1) intensity g n
      else colorOuter fuel l (i + 1) intensity g n
    | none => (l, n)

def mutateColor (ts : List Token) (intensity : ℚ) (g : ℕ → ℚ) (n : ℕ) :
    List Token × ℕ :=
  colorOuter ts.length ts 0 intensity g n

/-! ## Chaos pass -/

/-- `tokens.slice(a, b)`. -/
def sliceTok (ts : List Token) (a b : ℕ) : List Token :=
  (ts.drop a).take (b - a)

/-- The five chaos wrapper templates, in source order, around the original
return-expression text. -/
def chaosOptions (e : String) : List String :=
  ["( " ++ e ++ " + vec4<f32>(0.1, 0.1, 0.1, 0.0) )",
   "abs( " ++ e ++ " - 0.5 ) * 2.0",
   "vec4<f32>( (" ++ e ++ ").brg, 1.0 )",
   "mix( " ++ e ++ ", vec4<f32>(sin(time), cos(time), 0.5, 1.0), 0.1 )",
   "(" ++ e ++ " * vec4<f32>(1.2, 0.9, 0.8, 1.0))"]

/-- Whether a whitespace token directly follows the `return` keyword. -/
def wsAfterRet (ts : List Token) (retIdx : ℕ) : Bool :=
  match ts.get? (retIdx + 1) with
  | some t => t.type == TokenType.whitespace
  | none => false

/-- The effective splice start: skips one preserved whitespace token, but
is reset to `retIdx + 1` (dropping the preservation) if that overshoots
`semiIdx`. -/
def chaosSpliceStart (ts : List Token) (retIdx semiIdx : ℕ) : ℕ :=
  if wsAfterRet ts retIdx then
    (if retIdx + 2 ≥ semiIdx then retIdx + 1 else retIdx + 2)
  else retIdx + 1

def chaosPreservedWs (ts : List Token) (retIdx semiIdx : ℕ) : Bool :=
  wsAfterRet ts retIdx && !(retIdx + 2 ≥ semiIdx)

def chaosInjection (ts : List Token) (retIdx semiIdx : ℕ) (d : ℚ) : String :=
  (if chaosPreservedWs ts retIdx semiIdx then "" else " ") ++
  getRandomItem
    (chaosOptions (serialize (sliceTok ts (chaosSpliceStart ts retIdx semiIdx) semiIdx)))
    d

def mutateChaos (ts : List Token) (intensity : ℚ) (g : ℕ → ℚ) (n : ℕ) :
    List Token × ℕ :=
  match findLastFrom isReturnTok ts (ts.length - 1) with
  | none => (ts, n)
  | some retIdx =>
    match findFrom (fun t => t.value == ";") ts retIdx with
    | none => (ts, n)
    | some semiIdx =>
      (ts.take (chaosSpliceStart ts retIdx semiIdx) ++
         tokenize (chaosInjection ts retIdx semiIdx (g n)) ++
         ts.drop semiIdx,
       n + 1)

/-! ## Swizzle pass -/

/-- The regexp `/^[xyzrgba]{2,4}$/` (note: no `w`). -/
def swizzlePat (s : String) : Bool :=
  decide (2 ≤ s.data.length) && decide (s.data.length ≤ 4) &&
  s.data.all (fun c => c = 'x' || c = 'y' || c = 'z' || c = 'r' ||
                        c = 'g' || c = 'b' || c = 'a')

/-- The scan of `mutateSwizzle` (`for (i = 0; i < len - 1; i++)`); fueled
(the list length suffices since `set` preserves it). -/
def swizzleLoop (fuel : ℕ) (l : List Token) (i : ℕ) (intensity : ℚ)
    (g : ℕ → ℚ) (n : ℕ) : List Token × ℕ :=
  match fuel with
  | 0 => (l, n)
  | fuel + 1 =>
    if i < l.length - 1 then
      match l.get? i, l.get? (i + 1) with
      | some t, some nx =>
        if t.value = "." ∧ t.type = TokenType.punct then
          if nx.type = TokenType.ident ∧ swizzlePat nx.value then
            if g n < intensity then
              swizzleLoop fuel
                (l.set (i + 1)
                  { nx with value := (shuffleString nx.value g (n + 1)).1 })
                (i + 1) intensity g (shuffleString nx.value g (n + 1)).2
            else swizzleLoop fuel l (i + 1) intensity g (n + 1)
          else swizzleLoop fuel l (i + 1) intensity g n
        else swizzleLoop fuel l (i + 1) intensity g n
      | _, _ => (l, n)
    else (l, n)

def mutateSwizzle (ts : List Token) (intensity : ℚ) (g : ℕ → ℚ) (n : ℕ) :
    List Token × ℕ :=
  swizzleLoop ts.length ts 0 intensity g n

/-- Modelled from the spec: the component alphabet as the claim words it —
2–4 characters drawn from the coordinate and color alphabets x,y,z,w and
r,g,b,a.  The code's regexp `[xyzrgba]` omits `w`; this spec-side variant
includes it, for comparison with `swizzlePat`. -/
def swizzlePatSpec (s : String) : Bool :=
  decide (2 ≤ s.data.length) && decide (s.data.length ≤ 4) &&
  s.data.all (fun c => c = 'x' || c = 'y' || c = 'z' || c = 'w' ||
                        c = 'r' || c = 'g' || c = 'b' || c = 'a')

/-- Modelled from the spec: the Swizzle scan exactly as `swizzleLoop`, but
with the claim's alphabet (including `w`). -/
def swizzleLoopSpec (fuel : ℕ) (l : List Token) (i : ℕ) (intensity : ℚ)
    (g : ℕ → ℚ) (n : ℕ) : List Token × ℕ :=
  match fuel with
  | 0 => (l, n)
  | fuel + 1 =>
    if i < l.length - 1 then
      match l.get? i, l.get? (i + 1) with
      | some t, some nx =>
        if t.value = "." ∧ t.type = TokenType.punct then
          if nx.type = TokenType.ident ∧ swizzlePatSpec nx.value then
            if g n < intensity then
              swizzleLoopSpec fuel
                (l.set (i + 1)
                  { nx with value := (shuffleString nx.value g (n + 1)).1 })
                (i + 1) intensity g (shuffleString nx.value g (n + 1)).2
            else swizzleLoopSpec fuel l (i + 1) intensity g (n + 1)
          else swizzleLoopSpec fuel l (i + 1) intensity g n
        else swizzleLoopSpec fuel l (i + 1) intensity g n
      | _, _ => (l, n)
    else (l, n)

/-- Modelled from the spec: the Swizzle pass with the claim's alphabet. -/
def mutateSwizzleSpec (ts : List Token) (intensity : ℚ) (g : ℕ → ℚ) (n : ℕ) :
    List Token × ℕ :=
  swizzleLoopSpec ts.length ts 0 intensity g n

/-! ## Expression synthesizer -/

/-- The terminal case of `generateScalarExpr`: the `terms` array is built
(evaluating its `randFloat(0.1, 5.0).toFixed(2)` element, one draw) and one
entry is picked (one more draw). -/
def genTerminal (uvName : String) (g : ℕ → ℚ) (n : ℕ) : String × ℕ :=
  (getRandomItem
    [uvName ++ ".x", uvName ++ ".y", "length(" ++ uvName ++ " - 0.5)", "time",
     toFixedQ 2 (randFloat (1/10) 5 (g n)),
     "f_hash(" ++ uvName ++ ")", "f_n(" ++ uvName ++ ".x * 10.0)"] (g (n + 1)),
   n + 2)

def genUnary (f : String) (inner : String × ℕ × ℕ) : String × ℕ × ℕ :=
  (f ++ "(" ++
     (if f = "sqrt" then "abs(" ++ inner.1 ++ ")"
      else if f = "exp" then "clamp(" ++ inner.1 ++ ", -10.0, 10.0)"
      else inner.1) ++ ")",
   inner.2.1, 1 + inner.2.2)

def genBinary (op : String) (a : String × ℕ × ℕ)
    (kb : ℕ → String × ℕ × ℕ) : String × ℕ × ℕ :=
  ("(" ++ a.1 ++ " " ++ op ++ " " ++ (kb a.2.1).1 ++ ")",
   (kb a.2.1).2.1, 1 + a.2.2 + (kb a.2.1).2.2)

def genMix (a : String × ℕ × ℕ) (kb : ℕ → String × ℕ × ℕ) (g : ℕ → ℚ) :
    String × ℕ × ℕ :=
  ("mix(" ++ a.1 ++ ", " ++ (kb a.2.1).1 ++ ", " ++
     toFixedQ 2 (randFloat 0 1 (g (kb a.2.1).2.1)) ++ ")",
   (kb a.2.1).2.1 + 1, 1 + a.2.2 + (kb a.2.1).2.2)

def genSmoothstep (a : String × ℕ × ℕ) : String × ℕ × ℕ :=
  ("smoothstep(0.0, 1.0, " ++ a.1 ++ ")", a.2.1, 1 + a.2.2)

def genSmin (a : String × ℕ × ℕ) (kb : ℕ → String × ℕ × ℕ) : String × ℕ × ℕ :=
  ("f_smin(" ++ a.1 ++ ", " ++ (kb a.2.1).1 ++ ", 0.5)",
   (kb a.2.1).2.1, 1 + a.2.2 + (kb a.2.1).2.2)

/-- `generateScalarExpr(depth, uvName)`.  Returns the expression text, the
advanced draw cursor, and (instrumentation for the termination-bound claim)
the total number of invocations of the function in the call tree, the
initial one included.  At depth 0 the `depth <= 0 ||` test short-circuits,
consuming no draw. -/
def generateScalarExpr (depth : ℕ) (uvName : String) (g : ℕ → ℚ) (n : ℕ) :
    String × ℕ × ℕ :=
  match depth with
  | 0 =>
    ((genTerminal uvName g n).1, (genTerminal uvName g n).2, 1)
  | d + 1 =>
    if g n < 0.15 then
      ((genTerminal uvName g (n + 1)).1, (genTerminal uvName g (n + 1)).2, 1)
    else
      if g (n + 1) < 0.35 then
        -- unary functions, with domain guards for sqrt and exp
        genUnary (getRandomItem ["sin", "cos", "fract", "abs", "sqrt", "exp", "f_sin", "f_cos"] (g (n + 2)))
          (generateScalarExpr d uvName g (n + 3))
      else if g (n + 1) < 0.7 then
        genBinary (getRandomItem ["+", "-", "*", "*"] (g (n + 2)))
          (generateScalarExpr d uvName g (n + 3))
          (fun m => generateScalarExpr d uvName g m)
      else
        if g (n + 2) < 0.33 then
          genMix (generateScalarExpr d uvName g (n + 3))
            (fun m => generateScalarExpr d uvName g m) g
        else if g (n + 2) < 0.66 then
          genSmoothstep (generateScalarExpr d uvName g (n + 3))
        else
          genSmin (generateScalarExpr d uvName g (n + 3))
            (fun m => generateScalarExpr d uvName g m)

def geneAssemble3 (rs gs : String) (br : String × ℕ × ℕ) (kt : ℕ → String × ℕ × ℕ)
    (g : ℕ → ℚ) : String × ℕ :=
  if g br.2.1 < 1 / 2 then
    ("f_pal(" ++ (kt (br.2.1 + 1)).1 ++
       ", vec3<f32>(0.5,0.5,0.5), vec3<f32>(0.5,0.5,0.5), vec3<f32>(1.0,1.0,1.0), vec3<f32>(0.0, 0.33, 0.67))",
     (kt (br.2.1 + 1)).2.1)
  else
    ("vec3<f32>(" ++ rs ++ ", " ++ gs ++ ", " ++ br.1 ++ ")", br.2.1 + 1)

def geneAssemble2 (rs : String) (gr : String × ℕ × ℕ) (kb kt : ℕ → String × ℕ × ℕ)
    (g : ℕ → ℚ) : String × ℕ :=
  geneAssemble3 rs gr.1 (kb gr.2.1) kt g

def geneAssemble (r : String × ℕ × ℕ) (kg kb kt : ℕ → String × ℕ × ℕ)
    (g : ℕ → ℚ) : String × ℕ :=
  geneAssemble2 r.1 (kg r.2.1) kb kt g

/-- `generateProceduralGene(uvName)`: three depth-4 scalar expressions,
then with probability 1/2 a cosine-palette expression over a fresh depth-3
scalar instead. -/
def generateProceduralGene (uvName : String) (g : ℕ → ℚ) (n : ℕ) : String × ℕ :=
  geneAssemble (generateScalarExpr 4 uvName g n)
    (fun m => generateScalarExpr 4 uvName g m)
    (fun m => generateScalarExpr 4 uvName g m)
    (fun m => generateScalarExpr 3 uvName g m) g

/-! ## Structure pass -/

def structSpliceStart (ts : List Token) (retIdx : ℕ) : ℕ :=
  if wsAfterRet ts retIdx then retIdx + 2 else retIdx + 1

def structureSplice (ts : List Token) (retIdx semiIdx : ℕ) (gene : String × ℕ) :
    List Token × ℕ :=
  (ts.take (structSpliceStart ts retIdx) ++
     tokenize ((if wsAfterRet ts retIdx then "" else " ") ++
               "vec4<f32>(" ++ gene.1 ++ ", 1.0)") ++
     ts.drop (max semiIdx (structSpliceStart ts retIdx)),
   gene.2)

/-- The splice step of `mutateStructure` (no overshoot reset here: if the
splice range would be empty the new tokens are only inserted). -/
def structureInject (ts : List Token) (uvName : String) (retIdx semiIdx : ℕ)
    (g : ℕ → ℚ) (n : ℕ) : List Token × ℕ :=
  structureSplice ts retIdx semiIdx (generateProceduralGene uvName g n)

def mutateStructure (ts : List Token) (intensity : ℚ) (g : ℕ → ℚ) (n : ℕ) :
    List Token × ℕ :=
  match findMainFrom ts 0 with
  | none => (ts, n)
  | some mainIdx =>
    match findUVName ts mainIdx with
    | none => (ts, n)
    | some uvName =>
      if uvName = "" then (ts, n)
      else
        match findLastFrom isReturnTok ts (ts.length - 1) with
        | none => (ts, n)
        | some retIdx =>
          match findFrom (fun t => t.value == ";") ts retIdx with
          | none => (ts, n)
          | some semiIdx => structureInject ts uvName retIdx semiIdx g n

/-! ## Pipeline orchestrator -/

structure FuzzConfig where
  mutateNumbers : Bool
  mutateOperators : Bool
  mutateBuiltins : Bool
  mutateGeometry : Bool
  mutateColor : Bool
  mutateChaos : Bool
  mutateStructure : Bool
  intensity : ℚ
deriving Repr

/-- One intensity-gated structural pass application
(`if (flag && Math.random() < intensity) pass(...)`); the gating draw is
consumed only when the flag is set. -/
def gatedPass (pass : List Token → ℚ → (ℕ → ℚ) → ℕ → List Token × ℕ)
    (flag : Bool) (intensity : ℚ) (g : ℕ → ℚ) (s : List Token × ℕ) :
    List Token × ℕ :=
  if flag then
    (if g s.2 < intensity then pass s.1 intensity g (s.2 + 1) else (s.1, s.2 + 1))
  else s

/-- One flag-gated atomic pass application. -/
def flagPass (pass : List Token → ℚ → (ℕ → ℚ) → ℕ → List Token × ℕ)
    (flag : Bool) (intensity : ℚ) (g : ℕ → ℚ) (s : List Token × ℕ) :
    List Token × ℕ :=
  if flag then pass s.1 intensity g s.2 else s

/-- All passes of `fuzzShader` except the final implicit swizzle. -/
def fuzzPipelineCore (ts0 : List Token) (config : FuzzConfig) (g : ℕ → ℚ)
    (n : ℕ) : List Token × ℕ :=
  flagPass mutateBuiltins config.mutateBuiltins config.intensity g
    (flagPass mutateOperators config.mutateOperators config.intensity g
      (flagPass mutateNumbers config.mutateNumbers config.intensity g
        (gatedPass mutateChaos config.mutateChaos config.intensity g
          (gatedPass mutateColor config.mutateColor config.intensity g
            (gatedPass mutateGeometry config.mutateGeometry config.intensity g
              (gatedPass mutateStructure config.mutateStructure config.intensity g
                (ts0, n)))))))

/-- `fuzzShader(code, config)` from the source. -/
def fuzzShader (code : String) (config : FuzzConfig) (g : ℕ → ℚ) (n : ℕ) :
    String :=
  serialize
    (if config.intensity > 0.15 then
       (mutateSwizzle (fuzzPipelineCore (tokenize code) config g n).1
          config.intensity g (fuzzPipelineCore (tokenize code) config g n).2).1
     else (fuzzPipelineCore (tokenize code) config g n).1)

/-! ## Anchor-absence lemmas -/

theorem findLastFrom_none (p : Token → Bool) (ts : List Token)
    (h : ∀ t ∈ ts, p t = false) : ∀ i, findLastFrom p ts i = none := by
  intro i
  induction i with
  | zero =>
      rw [findLastFrom]
      cases hg : ts.get? 0 with
      | none => rfl
      | some t => simp [h t (List.get?_mem hg)]
  | succ i ih =>
      rw [findLastFrom]
      cases hg : ts.get? (i + 1) with
      | none => exact ih
      | some t => simp [h t (List.get?_mem hg), ih]

/-- A token sequence without a `return` identifier token. -/
def NoReturnTok (ts : List Token) : Prop :=
  ∀ t ∈ ts, ¬(t.type = TokenType.ident ∧ t.value = "return")

instance (ts : List Token) : Decidable (NoReturnTok ts) :=
  inferInstanceAs (Decidable (∀ t ∈ ts, ¬(t.type = TokenType.ident ∧ t.value = "return")))

theorem isReturnTok_false_of (ts : List Token) (h : NoReturnTok ts) :
    ∀ t ∈ ts, isReturnTok t = false := by
  intro t ht
  have := h t ht
  simp only [isReturnTok, Bool.and_eq_false_iff]
  by_cases hty : t.type = TokenType.ident
  · right
    simp only [beq_eq_false_iff_ne, ne_eq]
    intro hv
    exact this ⟨hty, hv⟩
  · left
    simpa using hty

theorem mutateChaos_noop (ts : List Token) (intensity : ℚ) (g : ℕ → ℚ) (n : ℕ)
    (h : NoReturnTok ts) : mutateChaos ts intensity g n = (ts, n) := by
  unfold mutateChaos
  rw [findLastFrom_none isReturnTok ts (isReturnTok_false_of ts h)]

theorem mutateStructure_noop (ts : List Token) (intensity : ℚ) (g : ℕ → ℚ) (n : ℕ)
    (h : NoReturnTok ts) : mutateStructure ts intensity g n = (ts, n) := by
  unfold mutateStructure
  rw [findLastFrom_none isReturnTok ts (isReturnTok_false_of ts h)]
  cases hm : findMainFrom ts 0 with
  | none => simp [hm]
  | some mainIdx =>
    cases hu : findUVName ts mainIdx with
    | none => simp [hm, hu]
    | some uvName => simp [hm, hu]

/-- C4: for any source text whose token sequence contains no identifier
token `return`, the Chaos pass and the Structure pass each return the
input token sequence unchanged, so the serialized output equals the
input. -/
theorem chaos_structure_noop_without_return (s : String) (intensity : ℚ)
    (g : ℕ → ℚ) (n : ℕ) (h : NoReturnTok (tokenize s)) :
    (mutateChaos (tokenize s) intensity g n).1 = tokenize s ∧
    (mutateStructure (tokenize s) intensity g n).1 = tokenize s ∧
    serialize (mutateChaos (tokenize s) intensity g n).1 = s ∧
    serialize (mutateStructure (tokenize s) intensity g n).1 = s := by
  rw [mutateChaos_noop _ _ _ _ h, mutateStructure_noop _ _ _ _ h]
  exact ⟨rfl, rfl, serialize_tokenize s, serialize_tokenize s⟩

/-- Witness for C4 at a concrete anchor-free source text. -/
theorem chaos_structure_noop_without_return_witness :
    NoReturnTok (tokenize "let x = 1.0;") ∧
    ((mutateChaos (tokenize "let x = 1.0;") 1 (fun _ => 0) 0).1 =
        tokenize "let x = 1.0;" ∧
     (mutateStructure (tokenize "let x = 1.0;") 1 (fun _ => 0) 0).1 =
        tokenize "let x = 1.0;" ∧
     serialize (mutateChaos (tokenize "let x = 1.0;") 1 (fun _ => 0) 0).1 =
        "let x = 1.0;" ∧
     serialize (mutateStructure (tokenize "let x = 1.0;") 1 (fun _ => 0) 0).1 =
        "let x = 1.0;") :=
  ⟨by decide, chaos_structure_noop_without_return "let x = 1.0;" 1 (fun _ => 0) 0
      (by decide)⟩

/-- A token sequence without an `fn` identifier token (so no entry
function can be located). -/
def NoFnTok (ts : List Token) : Prop :=
  ∀ t ∈ ts, ¬(t.type = TokenType.ident ∧ t.value = "fn")

instance (ts : List Token) : Decidable (NoFnTok ts) :=
  inferInstanceAs (Decidable (∀ t ∈ ts, ¬(t.type = TokenType.ident ∧ t.value = "fn")))

/-- No anchor is present: neither a `return` statement nor an `fn` entry
function. -/
def NoAnchors (ts : List Token) : Prop := NoReturnTok ts ∧ NoFnTok ts

instance (ts : List Token) : Decidable (NoAnchors ts) :=
  inferInstanceAs (Decidable (NoReturnTok ts ∧ NoFnTok ts))

theorem findMainIdx_none (ts : List Token) (h : NoFnTok ts) (fuel : ℕ) :
    ∀ i, findMainIdx ts fuel i = none := by
  induction fuel with
  | zero => intro i; rfl
  | succ fuel ih =>
      intro i
      rw [findMainIdx]
      split
      · cases hg : ts.get? i with
        | none => rfl
        | some t =>
            have hfn : ¬(t.type = TokenType.ident ∧ t.value = "fn") :=
              h t (List.get?_mem hg)
            simp only [hfn, if_false, ite_false]
            exact ih (i + 1)
      · rfl

theorem findMainFrom_none (ts : List Token) (h : NoFnTok ts) (i : ℕ) :
    findMainFrom ts i = none :=
  findMainIdx_none ts h ts.length i

theorem mutateGeometry_noop (ts : List Token) (intensity : ℚ) (g : ℕ → ℚ) (n : ℕ)
    (h : NoFnTok ts) : mutateGeometry ts intensity g n = (ts, n) := by
  unfold mutateGeometry
  rw [findMainFrom_none ts h 0]

theorem mutateStructure_noop_noFn (ts : List Token) (intensity : ℚ) (g : ℕ → ℚ)
    (n : ℕ) (h : NoFnTok ts) : mutateStructure ts intensity g n = (ts, n) := by
  unfold mutateStructure
  rw [findMainFrom_none ts h 0]

theorem gatedPass_false (pass : List Token → ℚ → (ℕ → ℚ) → ℕ → List Token × ℕ)
    (intensity : ℚ) (g : ℕ → ℚ) (s : List Token × ℕ) :
    gatedPass pass false intensity g s = s := rfl

theorem flagPass_false (pass : List Token → ℚ → (ℕ → ℚ) → ℕ → List Token × ℕ)
    (intensity : ℚ) (g : ℕ → ℚ) (s : List Token × ℕ) :
    flagPass pass false intensity g s = s := rfl

theorem gatedPass_fst (pass : List Token → ℚ → (ℕ → ℚ) → ℕ → List Token × ℕ)
    (flag : Bool) (intensity : ℚ) (g : ℕ → ℚ) (s : List Token × ℕ)
    (hp : ∀ m, (pass s.1 intensity g m).1 = s.1) :
    (gatedPass pass flag intensity g s).1 = s.1 := by
  unfold gatedPass
  split
  · split
    · exact hp _
    · rfl
  · rfl

/-- The token component of the pre-swizzle pipeline is the input whenever
no anchors are present, the four token-rewriting flags are off, and the
structural gates can only invoke passes that degrade to no-ops. -/
theorem fuzzPipelineCore_fst_noAnchor (code : String) (cfg : FuzzConfig)
    (g : ℕ → ℚ) (n : ℕ) (hA : NoAnchors (tokenize code))
    (h1 : cfg.mutateNumbers = false) (h2 : cfg.mutateOperators = false)
    (h3 : cfg.mutateBuiltins = false) (h4 : cfg.mutateColor = false) :
    (fuzzPipelineCore (tokenize code) cfg g n).1 = tokenize code := by
  obtain ⟨hRet, hFn⟩ := hA
  unfold fuzzPipelineCore
  rw [h1, h2, h3, h4]
  rw [flagPass_false, flagPass_false, flagPass_false, gatedPass_false]
  have e1 : (gatedPass mutateStructure cfg.mutateStructure cfg.intensity g
      (tokenize code, n)).1 = tokenize code :=
    gatedPass_fst _ _ _ _ _ (fun m => by
      rw [mutateStructure_noop_noFn _ _ _ _ hFn])
  have e2 : (gatedPass mutateGeometry cfg.mutateGeometry cfg.intensity g
      (gatedPass mutateStructure cfg.mutateStructure cfg.intensity g
        (tokenize code, n))).1 = tokenize code := by
    rw [gatedPass_fst _ _ _ _ _ (fun m => by
      rw [e1, mutateGeometry_noop _ _ _ _ hFn])]
    exact e1
  rw [gatedPass_fst _ _ _ _ _ (fun m => by
    rw [e2, mutateChaos_noop _ _ _ _ hRet])]
  exact e2

/-- C2 (amended): `fuzz` terminates and returns a string for every input
(it is a total function of this development); when no anchors match the
anchor-dependent passes are no-ops, so if additionally the Numbers,
Operators, Builtins and Color passes are disabled and the intensity is at
most the 0.15 swizzle threshold, the output is the input unchanged. -/
theorem fuzz_noAnchor_id (code : String) (cfg : FuzzConfig) (g : ℕ → ℚ) (n : ℕ)
    (hA : NoAnchors (tokenize code))
    (h1 : cfg.mutateNumbers = false) (h2 : cfg.mutateOperators = false)
    (h3 : cfg.mutateBuiltins = false) (h4 : cfg.mutateColor = false)
    (h5 : cfg.intensity ≤ 0.15) :
    fuzzShader code cfg g n = code := by
  unfold fuzzShader
  rw [if_neg (not_lt.mpr h5)]
  rw [fuzzPipelineCore_fst_noAnchor code cfg g n hA h1 h2 h3 h4]
  exact serialize_tokenize code

/-- Witness for C2's amended theorem: a no-anchor input with the three
structural flags enabled still round-trips at intensity ≤ 0.15. -/
theorem fuzz_noAnchor_id_witness :
    NoAnchors (tokenize "1.5 + 2.5") ∧
    fuzzShader "1.5 + 2.5"
      ⟨false, false, false, true, false, true, true, 1/10⟩ (fun _ => 0) 0 =
      "1.5 + 2.5" :=
  ⟨by decide,
   fuzz_noAnchor_id "1.5 + 2.5" ⟨false, false, false, true, false, true, true, 1/10⟩
     (fun _ => 0) 0 (by decide) rfl rfl rfl rfl (by norm_num)⟩

/-- Counterexample for C2 as stated: `"1.5"` contains no anchors at all,
yet `fuzz` with the Numbers pass enabled (intensity 1) rewrites it, so "no
anchors match" does not imply the input is returned unchanged. -/
theorem fuzz_noAnchor_changes :
    NoAnchors (tokenize "1.5") ∧
    fuzzShader "1.5" ⟨true, false, false, false, false, false, false, 1⟩
      (fun _ => 0) 0 = "1.000" ∧
    ("1.000" : String) ≠ "1.5" :=
  ⟨by decide, by with_unfolding_all decide, by decide⟩

/-! ## String helpers shared by the scenario proofs -/

theorem str_ext {a b : String} (h : a.data = b.data) : a = b := by
  cases a
  cases b
  exact congrArg String.mk h

theorem concatVals_append (a b : List Token) :
    concatVals (a ++ b) = concatVals a ++ concatVals b := by
  induction a with
  | nil => rfl
  | cons t ts ih =>
      show t.value.data ++ concatVals (ts ++ b) =
        (t.value.data ++ concatVals ts) ++ concatVals b
      rw [ih, List.append_assoc]

theorem serialize_append (a b : List Token) :
    serialize (a ++ b) = serialize a ++ serialize b := by
  apply str_ext
  show (serialize (a ++ b)).data = (serialize a).data ++ (serialize b).data
  rw [serialize_data, serialize_data, serialize_data, concatVals_append]

theorem empty_str_append (x : String) : "" ++ x = x := str_ext rfl

/-- With a real draw (in `[0, 1)`) and a nonempty array, `getRandomItem`
returns an element of the array, at index `⌊d·len⌋`. -/
theorem getRandomItem_getD (arr : List String) (d : ℚ) (h0 : 0 ≤ d)
    (h1 : d < 1) (hne : arr.length ≠ 0) :
    ∃ k, k < arr.length ∧ getRandomItem arr d = arr.getD k "" := by
  have hlen : (0 : ℚ) < (arr.length : ℚ) := by
    exact_mod_cast Nat.pos_of_ne_zero hne
  have hf0 : 0 ≤ ⌊d * (arr.length : ℚ)⌋ :=
    Int.floor_nonneg.mpr (mul_nonneg h0 hlen.le)
  have hmul1 : d * (arr.length : ℚ) < ((arr.length : ℤ) : ℚ) := by
    push_cast
    calc d * (arr.length : ℚ) < 1 * (arr.length : ℚ) :=
          mul_lt_mul_of_pos_right h1 hlen
      _ = (arr.length : ℚ) := one_mul _
  have hf1 : ⌊d * (arr.length : ℚ)⌋ < (arr.length : ℤ) := Int.floor_lt.mpr hmul1
  have hk : (⌊d * (arr.length : ℚ)⌋).toNat < arr.length := by omega
  refine ⟨(⌊d * (arr.length : ℚ)⌋).toNat, hk, ?_⟩
  unfold getRandomItem
  rw [dif_pos ⟨hf0, hk⟩]
  rw [List.getD_eq_get?, List.get?_eq_get hk]
  rfl

/-! ## Chaos concrete scenario -/

/-- C8: on input `return vec4<f32>(1.0, 0.0, 0.0, 1.0);`, whenever the
Chaos pass runs (any intensity, any real random stream), the serialized
result is `return ` + one of the five fixed chaos templates + `;`, and
that template contains the original expression text
`vec4<f32>(1.0, 0.0, 0.0, 1.0)` verbatim as a sub-string. -/
theorem chaos_scenario_A (intensity : ℚ) (g : ℕ → ℚ) (n : ℕ) (hg : ValidRng g) :
    ∃ k, k < 5 ∧
      serialize (mutateChaos (tokenize "return vec4<f32>(1.0, 0.0, 0.0, 1.0);")
          intensity g n).1 =
        "return " ++
          (chaosOptions "vec4<f32>(1.0, 0.0, 0.0, 1.0)").getD k "" ++ ";" ∧
      ∃ a b, (chaosOptions "vec4<f32>(1.0, 0.0, 0.0, 1.0)").getD k "" =
               a ++ "vec4<f32>(1.0, 0.0, 0.0, 1.0)" ++ b := by
  obtain ⟨k, hk, hgr⟩ :=
    getRandomItem_getD (chaosOptions "vec4<f32>(1.0, 0.0, 0.0, 1.0)") (g n)
      (hg n).1 (hg n).2 (by decide)
  have hlen5 : (chaosOptions "vec4<f32>(1.0, 0.0, 0.0, 1.0)").length = 5 := rfl
  have hk5 : k < 5 := by omega
  have hret : findLastFrom isReturnTok
      (tokenize "return vec4<f32>(1.0, 0.0, 0.0, 1.0);")
      ((tokenize "return vec4<f32>(1.0, 0.0, 0.0, 1.0);").length - 1) = some 0 := by
    decide
  have hsemi : findFrom (fun t => t.value == ";")
      (tokenize "return vec4<f32>(1.0, 0.0, 0.0, 1.0);") 0 = some 18 := by decide
  have hsp : chaosSpliceStart (tokenize "return vec4<f32>(1.0, 0.0, 0.0, 1.0);")
      0 18 = 2 := by decide
  have hpw : chaosPreservedWs (tokenize "return vec4<f32>(1.0, 0.0, 0.0, 1.0);")
      0 18 = true := by decide
  have hexpr : serialize (sliceTok
      (tokenize "return vec4<f32>(1.0, 0.0, 0.0, 1.0);") 2 18) =
      "vec4<f32>(1.0, 0.0, 0.0, 1.0)" := by decide
  have h1 : serialize ((tokenize "return vec4<f32>(1.0, 0.0, 0.0, 1.0);").take 2) =
      "return " := by decide
  have h2 : serialize ((tokenize "return vec4<f32>(1.0, 0.0, 0.0, 1.0);").drop 18) =
      ";" := by decide
  refine ⟨k, hk5, ?_, ?_⟩
  · simp only [mutateChaos, hret, hsemi]
    rw [serialize_append, serialize_append]
    simp only [chaosInjection, hsp, hpw, hexpr, if_true]
    rw [hgr, empty_str_append, serialize_tokenize, h1, h2]
  · have h5 : k = 0 ∨ k = 1 ∨ k = 2 ∨ k = 3 ∨ k = 4 := by omega
    rcases h5 with rfl | rfl | rfl | rfl | rfl
    · exact ⟨"( ", " + vec4<f32>(0.1, 0.1, 0.1, 0.0) )", rfl⟩
    · exact ⟨"abs( ", " - 0.5 ) * 2.0", rfl⟩
    · exact ⟨"vec4<f32>( (", ").brg, 1.0 )", rfl⟩
    · exact ⟨"mix( ", ", vec4<f32>(sin(time), cos(time), 0.5, 1.0), 0.1 )", rfl⟩
    · exact ⟨"(", " * vec4<f32>(1.2, 0.9, 0.8, 1.0))", rfl⟩

/-- Witness for C8 at intensity 1, the zero stream. -/
theorem chaos_scenario_A_witness :
    ∃ k, k < 5 ∧
      serialize (mutateChaos (tokenize "return vec4<f32>(1.0, 0.0, 0.0, 1.0);")
          1 (fun _ => 0) 0).1 =
        "return " ++
          (chaosOptions "vec4<f32>(1.0, 0.0, 0.0, 1.0)").getD k "" ++ ";" ∧
      ∃ a b, (chaosOptions "vec4<f32>(1.0, 0.0, 0.0, 1.0)").getD k "" =
               a ++ "vec4<f32>(1.0, 0.0, 0.0, 1.0)" ++ b :=
  chaos_scenario_A 1 (fun _ => 0) 0 (fun _ => ⟨le_refl 0, by norm_num⟩)

/-! ## Frame property of the token-rewriting passes -/

/-- Same length and, position by position, the same kind and the same
source offset: only the `value` field may differ. -/
def SameShape (ts out : List Token) : Prop :=
  out.length = ts.length ∧
  ∀ k, (out.get? k).map Token.type = (ts.get? k).map Token.type ∧
       (out.get? k).map Token.index = (ts.get? k).map Token.index

theorem sameShape_refl (ts : List Token) : SameShape ts ts :=
  ⟨rfl, fun _ => ⟨rfl, rfl⟩⟩

theorem sameShape_trans {a b c : List Token} (h1 : SameShape a b)
    (h2 : SameShape b c) : SameShape a c := by
  refine ⟨h2.1.trans h1.1, fun k => ?_⟩
  obtain ⟨e1, e2⟩ := h1.2 k
  obtain ⟨e3, e4⟩ := h2.2 k
  exact ⟨e3.trans e1, e4.trans e2⟩

theorem sameShape_set {l : List Token} {j : ℕ} {t t' : Token}
    (hg : l.get? j = some t) (hty : t'.type = t.type) (hix : t'.index = t.index) :
    SameShape l (l.set j t') := by
  refine ⟨by simp, fun k => ?_⟩
  by_cases hk : j = k
  · subst hk
    rw [List.get?_set_eq, hg]
    simp [hty, hix]
  · rw [List.get?_set_ne _ _ hk]
    exact ⟨rfl, rfl⟩

theorem sameShape_setValue {l : List Token} {j : ℕ} {t : Token} (v : String)
    (hg : l.get? j = some t) :
    SameShape l (l.set j { t with value := v }) :=
  sameShape_set hg rfl rfl

theorem mutateNumbersStep_shape (t : Token) (intensity : ℚ) (g : ℕ → ℚ) (n : ℕ) :
    (mutateNumbersStep t intensity g n).1.type = t.type ∧
    (mutateNumbersStep t intensity g n).1.index = t.index := by
  refine ⟨?_, ?_⟩ <;> (unfold mutateNumbersStep; repeat' split) <;> rfl

theorem mutateOperatorsStep_shape (t : Token) (intensity : ℚ) (g : ℕ → ℚ) (n : ℕ) :
    (mutateOperatorsStep t intensity g n).1.type = t.type ∧
    (mutateOperatorsStep t intensity g n).1.index = t.index := by
  refine ⟨?_, ?_⟩ <;> (unfold mutateOperatorsStep; repeat' split) <;> rfl

theorem mutateBuiltinsStep_shape (t : Token) (intensity : ℚ) (g : ℕ → ℚ) (n : ℕ) :
    (mutateBuiltinsStep t intensity g n).1.type = t.type ∧
    (mutateBuiltinsStep t intensity g n).1.index = t.index := by
  refine ⟨?_, ?_⟩ <;> (unfold mutateBuiltinsStep; repeat' split) <;> rfl

theorem mapPass_shape (step : Token → ℚ → (ℕ → ℚ) → ℕ → Token × ℕ)
    (hstep : ∀ t intensity g n, (step t intensity g n).1.type = t.type ∧
              (step t intensity g n).1.index = t.index) :
    ∀ (ts : List Token) (intensity : ℚ) (g : ℕ → ℚ) (n : ℕ),
      SameShape ts (mapPass step ts intensity g n).1 := by
  intro ts
  induction ts with
  | nil => intro intensity g n; exact sameShape_refl []
  | cons t ts ih =>
      intro intensity g n
      show SameShape (t :: ts)
        ((step t intensity g n).1 ::
          (mapPass step ts intensity g (step t intensity g n).2).1)
      obtain ⟨hlen, hpt⟩ := ih intensity g (step t intensity g n).2
      refine ⟨by simpa using hlen, fun k => ?_⟩
      cases k with
      | zero =>
          obtain ⟨e1, e2⟩ := hstep t intensity g n
          simp [e1, e2]
      | succ k => simpa using hpt k

theorem colorInner_shape (fuel : ℕ) :
    ∀ (l : List Token) (j : ℕ) (b : Int) (intensity : ℚ) (g : ℕ → ℚ) (n : ℕ),
      SameShape l (colorInner fuel l j b intensity g n).1 := by
  induction fuel with
  | zero => intro l j b intensity g n; exact sameShape_refl l
  | succ fuel ih =>
      intro l j b intensity g n
      rw [colorInner]
      split
      · rename_i t heq
        split
        · split
          · split
            · split
              · exact sameShape_trans (sameShape_setValue _ heq) (ih _ _ _ _ _ _)
              · exact sameShape_trans (sameShape_setValue _ heq) (ih _ _ _ _ _ _)
            · exact ih _ _ _ _ _ _
          · exact ih _ _ _ _ _ _
        · exact sameShape_refl l
      · exact sameShape_refl l

theorem colorOuter_shape (fuel : ℕ) :
    ∀ (l : List Token) (i : ℕ) (intensity : ℚ) (g : ℕ → ℚ) (n : ℕ),
      SameShape l (colorOuter fuel l i intensity g n).1 := by
  induction fuel with
  | zero => intro l i intensity g n; exact sameShape_refl l
  | succ fuel ih =>
      intro l i intensity g n
      rw [colorOuter]
      split
      · split
        · split
          · split
            · exact sameShape_trans (colorInner_shape _ _ _ _ _ _ _) (ih _ _ _ _ _)
            · exact ih _ _ _ _ _
          · exact ih _ _ _ _ _
        · exact ih _ _ _ _ _
      · exact sameShape_refl l

theorem swizzleLoop_shape (fuel : ℕ) :
    ∀ (l : List Token) (i : ℕ) (intensity : ℚ) (g : ℕ → ℚ) (n : ℕ),
      SameShape l (swizzleLoop fuel l i intensity g n).1 := by
  induction fuel with
  | zero => intro l i intensity g n; exact sameShape_refl l
  | succ fuel ih =>
      intro l i intensity g n
      rw [swizzleLoop]
      split
      · split
        · rename_i t nx heq heq2
          split
          · split
            · split
              · exact sameShape_trans (sameShape_setValue _ heq2) (ih _ _ _ _ _)
              · exact ih _ _ _ _ _
            · exact ih _ _ _ _ _
          · exact ih _ _ _ _ _
        · exact sameShape_refl l
      · exact sameShape_refl l

/-- C10: the Numbers, Operators, Builtins, Color and Swizzle passes each
return a sequence of exactly the input's length whose i-th token has the
same kind and the same source offset as the i-th input token; only the
text can differ (no insertion, deletion or reordering). -/
theorem five_passes_frame (ts : List Token) (intensity : ℚ) (g : ℕ → ℚ) (n : ℕ) :
    SameShape ts (mutateNumbers ts intensity g n).1 ∧
    SameShape ts (mutateOperators ts intensity g n).1 ∧
    SameShape ts (mutateBuiltins ts intensity g n).1 ∧
    SameShape ts (mutateColor ts intensity g n).1 ∧
    SameShape ts (mutateSwizzle ts intensity g n).1 :=
  ⟨mapPass_shape _ mutateNumbersStep_shape ts intensity g n,
   mapPass_shape _ mutateOperatorsStep_shape ts intensity g n,
   mapPass_shape _ mutateBuiltinsStep_shape ts intensity g n,
   colorOuter_shape _ _ _ _ _ _,
   swizzleLoop_shape _ _ _ _ _ _⟩

/-! ## Fisher–Yates permutation facts -/

theorem cons_set_perm (t : List Char) (k : ℕ) (b a : Char)
    (h : t.get? k = some b) : List.Perm (b :: t.set k a) (a :: t) := by
  induction t generalizing k with
  | nil => simp at h
  | cons x xs ih =>
      cases k with
      | zero =>
          simp only [List.get?, Option.some.injEq] at h
          subst h
          exact List.Perm.swap _ _ _
      | succ m =>
          simp only [List.get?] at h
          show List.Perm (b :: x :: xs.set m a) (a :: x :: xs)
          have p1 : List.Perm (b :: x :: xs.set m a) (x :: b :: xs.set m a) :=
            List.Perm.swap _ _ _
          have p2 : List.Perm (x :: b :: xs.set m a) (x :: a :: xs) :=
            List.Perm.cons x (ih m h)
          have p3 : List.Perm (x :: a :: xs) (a :: x :: xs) :=
            List.Perm.swap _ _ _
          exact (p1.trans p2).trans p3

theorem set_set_perm (l : List Char) (i j : ℕ) (a b : Char)
    (h1 : l.get? i = some a) (h2 : l.get? j = some b) :
    List.Perm ((l.set i b).set j a) l := by
  induction l generalizing i j with
  | nil => simp at h1
  | cons c t ih =>
      cases i with
      | zero =>
          simp only [List.get?, Option.some.injEq] at h1
          subst h1
          cases j with
          | zero =>
              simp only [List.get?, Option.some.injEq] at h2
              subst h2
              exact List.Perm.refl _
          | succ m =>
              simp only [List.get?] at h2
              exact cons_set_perm t m b _ h2
      | succ k =>
          simp only [List.get?] at h1
          cases j with
          | zero =>
              simp only [List.get?, Option.some.injEq] at h2
              subst h2
              exact cons_set_perm t k a _ h1
          | succ m =>
              simp only [List.get?] at h2
              exact List.Perm.cons c (ih k m h1 h2)

theorem listSwap_perm (l : List Char) (i j : ℕ) (hi : i < l.length)
    (hj : j < l.length) : List.Perm (listSwap l i j) l := by
  unfold listSwap
  rw [List.get?_eq_get hi, List.get?_eq_get hj]
  exact set_set_perm l i j _ _ (List.get?_eq_get hi) (List.get?_eq_get hj)

theorem listSwap_length (l : List Char) (i j : ℕ) :
    (listSwap l i j).length = l.length := by
  unfold listSwap
  cases l.get? i with
  | none => rfl
  | some a =>
      cases l.get? j with
      | none => rfl
      | some b => simp

theorem fyLoop_perm (g : ℕ → ℚ) (hg : ValidRng g) (i : ℕ) :
    ∀ (l : List Char) (n : ℕ), i < l.length →
      List.Perm (fyLoop l i g n).1 l := by
  induction i with
  | zero => intro l n _; exact List.Perm.refl _
  | succ i' ih =>
      intro l n hi
      rw [fyLoop]
      have hj : (⌊g n * ((i' : ℚ) + 1 + 1)⌋).toNat < l.length := by
        have h0 := (hg n).1
        have h1 := (hg n).2
        have hpos : (0 : ℚ) < (i' : ℚ) + 1 + 1 := by positivity
        have hle : g n * ((i' : ℚ) + 1 + 1) < (i' : ℚ) + 1 + 1 := by
          calc g n * ((i' : ℚ) + 1 + 1) < 1 * ((i' : ℚ) + 1 + 1) :=
                mul_lt_mul_of_pos_right h1 hpos
            _ = (i' : ℚ) + 1 + 1 := one_mul _
        have hfl : ⌊g n * ((i' : ℚ) + 1 + 1)⌋ < (i' : ℤ) + 2 :=
          Int.floor_lt.mpr (by push_cast; linarith)
        omega
      have hlen : (listSwap l (i' + 1) (⌊g n * (i' + 1 + 1)⌋).toNat).length =
          l.length := listSwap_length _ _ _
      have hperm : List.Perm (listSwap l (i' + 1) (⌊g n * (i' + 1 + 1)⌋).toNat) l :=
        listSwap_perm _ _ _ hi hj
      have hi' : i' < (listSwap l (i' + 1) (⌊g n * (i' + 1 + 1)⌋).toNat).length := by
        omega
      exact (ih _ (n + 1) hi').trans hperm

theorem shuffleString_perm (s : String) (g : ℕ → ℚ) (n : ℕ) (hg : ValidRng g) :
    List.Perm (shuffleString s g n).1.data s.data := by
  unfold shuffleString
  cases hs : s.data with
  | nil => simp [fyLoop]
  | cons c cs =>
      have hlt : (c :: cs).length - 1 < (c :: cs).length := by simp
      simpa using fyLoop_perm g hg ((c :: cs).length - 1) (c :: cs) n hlt

/-! ## Swizzle characterization -/

/-- A position the Swizzle pass may rewrite: an identifier of 2–4
component letters immediately preceded by a `.` punctuation token; the
output there is an identifier with the same offset whose text is a
permutation of the original text. -/
def SwizzChangedAt (l : List Token) (k : ℕ) (o : Option Token) : Prop :=
  ∃ t t', l.get? k = some t ∧ o = some t' ∧
    t.type = TokenType.ident ∧ swizzlePat t.value = true ∧
    t'.type = TokenType.ident ∧ t'.index = t.index ∧
    List.Perm t'.value.data t.value.data ∧
    1 ≤ k ∧ ∃ td, l.get? (k - 1) = some td ∧ td.value = "." ∧
                  td.type = TokenType.punct

/-- The Swizzle pass only permutes component letters of swizzle tokens
after a dot; every other token is unchanged. -/
def SwizzleOnly (ts out : List Token) : Prop :=
  out.length = ts.length ∧
  ∀ k, out.get? k = ts.get? k ∨ SwizzChangedAt ts k (out.get? k)

theorem swizzleOnly_refl (ts : List Token) : SwizzleOnly ts ts :=
  ⟨rfl, fun _ => Or.inl rfl⟩

theorem swizzleLoop_spec (g : ℕ → ℚ) (hg : ValidRng g) (fuel : ℕ) :
    ∀ (l : List Token) (i : ℕ) (intensity : ℚ) (n : ℕ),
      ((swizzleLoop fuel l i intensity g n).1.length = l.length) ∧
      (∀ k, k ≤ i → (swizzleLoop fuel l i intensity g n).1.get? k = l.get? k) ∧
      (∀ k, i < k → (swizzleLoop fuel l i intensity g n).1.get? k = l.get? k ∨
         SwizzChangedAt l k ((swizzleLoop fuel l i intensity g n).1.get? k)) := by
  induction fuel with
  | zero => intro l i intensity n; exact ⟨rfl, fun _ _ => rfl, fun _ _ => Or.inl rfl⟩
  | succ fuel ih =>
      intro l i intensity n
      rw [swizzleLoop]
      split
      · rename_i hil
        split
        · rename_i t nx heq heq2
          split
          · split
            · split
              · -- the shuffle branch
                rename_i hdot hsw hdraw
                have hi1 : i + 1 < l.length := by omega
                obtain ⟨ihl, ihle, ihgt⟩ :=
                  ih (l.set (i + 1)
                      { nx with value := (shuffleString nx.value g (n + 1)).1 })
                    (i + 1) intensity (shuffleString nx.value g (n + 1)).2
                refine ⟨by simpa using ihl, fun k hk => ?_, fun k hk => ?_⟩
                · rw [ihle k (by omega)]
                  exact List.get?_set_ne _ _ (by omega)
                · by_cases hk1 : k = i + 1
                  · subst hk1
                    right
                    rw [ihle (i + 1) (le_refl _)]
                    rw [List.get?_set_eq_of_lt _ hi1]
                    refine ⟨nx, _, heq2, rfl, hsw.1, hsw.2, hsw.1, rfl,
                      shuffleString_perm _ g (n + 1) hg, by omega,
                      t, by simpa using heq, hdot.1, hdot.2⟩
                  · rcases ihgt k (by omega) with hsame | hch
                    · left
                      rw [hsame]
                      exact List.get?_set_ne _ _ (by omega)
                    · right
                      obtain ⟨t0, t0', he1, he2, hc⟩ := hch
                      rw [List.get?_set_ne _ _ (by omega)] at he1
                      obtain ⟨hc1, hc2, hc3, hc4, hc5, hc6, td, htd, htdv, htdt⟩ := hc
                      refine ⟨t0, t0', he1, he2, hc1, hc2, hc3, hc4, hc5, hc6,
                        td, ?_, htdv, htdt⟩
                      by_cases hkd : k - 1 = i + 1
                      · rw [hkd, List.get?_set_eq_of_lt _ hi1] at htd
                        cases htd
                        cases hsw.1 ▸ htdt
                      · rw [List.get?_set_ne _ _ (fun hcon => hkd hcon.symm)] at htd
                        exact htd
              · -- eligible but the draw failed: untouched here
                obtain ⟨ihl, ihle, ihgt⟩ := ih l (i + 1) intensity (n + 1)
                refine ⟨ihl, fun k hk => ihle k (by omega), fun k hk => ?_⟩
                by_cases hk1 : k = i + 1
                · subst hk1; exact Or.inl (ihle (i + 1) (le_refl _))
                · exact ihgt k (by omega)
            · obtain ⟨ihl, ihle, ihgt⟩ := ih l (i + 1) intensity n
              refine ⟨ihl, fun k hk => ihle k (by omega), fun k hk => ?_⟩
              by_cases hk1 : k = i + 1
              · subst hk1; exact Or.inl (ihle (i + 1) (le_refl _))
              · exact ihgt k (by omega)
          · obtain ⟨ihl, ihle, ihgt⟩ := ih l (i + 1) intensity n
            refine ⟨ihl, fun k hk => ihle k (by omega), fun k hk => ?_⟩
            by_cases hk1 : k = i + 1
            · subst hk1; exact Or.inl (ihle (i + 1) (le_refl _))
            · exact ihgt k (by omega)
        · exact ⟨rfl, fun _ _ => rfl, fun _ _ => Or.inl rfl⟩
      · exact ⟨rfl, fun _ _ => rfl, fun _ _ => Or.inl rfl⟩

/-- Characterization of the whole Swizzle pass, for real random streams. -/
theorem mutateSwizzle_spec (ts : List Token) (intensity : ℚ) (g : ℕ → ℚ)
    (n : ℕ) (hg : ValidRng g) :
    SwizzleOnly ts (mutateSwizzle ts intensity g n).1 := by
  obtain ⟨hl, hle, hgt⟩ := swizzleLoop_spec g hg ts.length ts 0 intensity n
  refine ⟨hl, fun k => ?_⟩
  cases k with
  | zero => exact Or.inl (hle 0 (le_refl _))
  | succ k => exact hgt (k + 1) (by omega)

/-! ## Neutral configuration and the implicit Swizzle pass -/

/-- C3: with every boolean flag false, `fuzz` returns the input unchanged
when the intensity is at most 0.15; above that threshold the implicit
Swizzle pass still runs, and the output serializes a token sequence that
differs from the input's only by permutations of swizzle-component
identifiers following a `.` (no other change). -/
theorem fuzz_neutral (code : String) (cfg : FuzzConfig) (g : ℕ → ℚ) (n : ℕ)
    (hg : ValidRng g)
    (h1 : cfg.mutateNumbers = false) (h2 : cfg.mutateOperators = false)
    (h3 : cfg.mutateBuiltins = false) (h4 : cfg.mutateGeometry = false)
    (h5 : cfg.mutateColor = false) (h6 : cfg.mutateChaos = false)
    (h7 : cfg.mutateStructure = false) :
    (cfg.intensity ≤ 0.15 → fuzzShader code cfg g n = code) ∧
    ∃ ts, fuzzShader code cfg g n = serialize ts ∧
          SwizzleOnly (tokenize code) ts := by
  have hcore : fuzzPipelineCore (tokenize code) cfg g n = (tokenize code, n) := by
    unfold fuzzPipelineCore
    rw [h1, h2, h3, h4, h5, h6, h7]
    rfl
  constructor
  · intro hle
    unfold fuzzShader
    rw [hcore, if_neg (not_lt.mpr hle)]
    exact serialize_tokenize code
  · by_cases hlt : cfg.intensity > 0.15
    · refine ⟨(mutateSwizzle (tokenize code) cfg.intensity g n).1, ?_,
        mutateSwizzle_spec _ _ _ _ hg⟩
      unfold fuzzShader
      rw [hcore, if_pos hlt]
    · refine ⟨tokenize code, ?_, swizzleOnly_refl _⟩
      unfold fuzzShader
      rw [hcore, if_neg hlt]

/-- Witness for C3 at a concrete all-flags-false configuration with
intensity 1 (above the swizzle threshold). -/
theorem fuzz_neutral_witness :
    (((⟨false, false, false, false, false, false, false, 1⟩ : FuzzConfig).intensity ≤ 0.15 →
      fuzzShader "a.xy" ⟨false, false, false, false, false, false, false, 1⟩
        (fun _ => 0) 0 = "a.xy") ∧
     ∃ ts, fuzzShader "a.xy" ⟨false, false, false, false, false, false, false, 1⟩
             (fun _ => 0) 0 = serialize ts ∧
           SwizzleOnly (tokenize "a.xy") ts) :=
  fuzz_neutral "a.xy" ⟨false, false, false, false, false, false, false, 1⟩
    (fun _ => 0) 0 (fun _ => ⟨le_refl 0, by norm_num⟩) rfl rfl rfl rfl rfl rfl rfl

/-- C6 counterexample: the claim's alphabet includes `w`, but the code's
regexp `[xyzrgba]{2,4}` does not.  On `.wx` at intensity 1 with the zero
stream, the code's pass never touches the token (under any draws it stays
`wx`), while the pass as the claim words it (alphabet with `w`) shuffles
it to `xw`. -/
theorem swizzle_w_never_permuted :
    (mutateSwizzle (tokenize ".wx") 1 (fun _ => 0) 0).1 = tokenize ".wx" ∧
    (mutateSwizzleSpec (tokenize ".wx") 1 (fun _ => 0) 0).1 ≠ tokenize ".wx" ∧
    (mutateSwizzleSpec (tokenize ".wx") 1 (fun _ => 0) 0).1 ≠
      (mutateSwizzle (tokenize ".wx") 1 (fun _ => 0) 0).1 :=
  ⟨by with_unfolding_all decide, by with_unfolding_all decide,
   by with_unfolding_all decide⟩

/-- C6 (amended): whenever intensity exceeds 0.15, `fuzz` applies the
Swizzle pass as its final step irrespective of any enable flag; within the
pass every identifier of 2–4 characters drawn from x,y,z,r,g,b,a (the
code's alphabet — `w` excluded) following a `.` is, gated per token by an
intensity-probability draw, replaced by a Fisher–Yates permutation of its
own characters, and no other token is changed. -/
theorem swizzle_unconditional_and_permutes (code : String) (cfg : FuzzConfig)
    (g : ℕ → ℚ) (n : ℕ) (hg : ValidRng g) (hi : 0.15 < cfg.intensity) :
    fuzzShader code cfg g n =
      serialize (mutateSwizzle (fuzzPipelineCore (tokenize code) cfg g n).1
        cfg.intensity g (fuzzPipelineCore (tokenize code) cfg g n).2).1 ∧
    SwizzleOnly (fuzzPipelineCore (tokenize code) cfg g n).1
      (mutateSwizzle (fuzzPipelineCore (tokenize code) cfg g n).1
        cfg.intensity g (fuzzPipelineCore (tokenize code) cfg g n).2).1 := by
  constructor
  · unfold fuzzShader
    rw [if_pos hi]
  · exact mutateSwizzle_spec _ _ _ _ hg

/-- Witness for C6's amended theorem at a concrete configuration. -/
theorem swizzle_unconditional_witness :
    (fuzzShader "a.xy" ⟨false, false, false, false, false, false, false, 1⟩
        (fun _ => 0) 0 =
      serialize (mutateSwizzle
        (fuzzPipelineCore (tokenize "a.xy")
          ⟨false, false, false, false, false, false, false, 1⟩ (fun _ => 0) 0).1
        (1 : ℚ) (fun _ => 0)
        (fuzzPipelineCore (tokenize "a.xy")
          ⟨false, false, false, false, false, false, false, 1⟩ (fun _ => 0) 0).2).1 ∧
     SwizzleOnly
       (fuzzPipelineCore (tokenize "a.xy")
         ⟨false, false, false, false, false, false, false, 1⟩ (fun _ => 0) 0).1
       (mutateSwizzle
         (fuzzPipelineCore (tokenize "a.xy")
           ⟨false, false, false, false, false, false, false, 1⟩ (fun _ => 0) 0).1
         (1 : ℚ) (fun _ => 0)
         (fuzzPipelineCore (tokenize "a.xy")
           ⟨false, false, false, false, false, false, false, 1⟩ (fun _ => 0) 0).2).1) :=
  swizzle_unconditional_and_permutes "a.xy"
    ⟨false, false, false, false, false, false, false, 1⟩ (fun _ => 0) 0
    (fun _ => ⟨le_refl 0, by norm_num⟩) (by norm_num)

/-! ## Numeric bounds of the Numbers pass -/

/-- Syntactic check for the claim's "decimal with at most 3 fractional
digits": at least one integer digit, a point, and 1-3 fraction digits. -/
def checkDigitsDot (cs : List Char) : Bool :=
  decide (cs.takeWhile Char.isDigit ≠ []) &&
  (match cs.dropWhile Char.isDigit with
   | c :: fr =>
       (c = '.' : Bool) && fr.all Char.isDigit &&
       decide (1 ≤ fr.length) && decide (fr.length ≤ 3)
   | [] => false)

/-- The same check allowing one leading minus sign. -/
def decimalAtMost3Frac (s : String) : Bool :=
  match s.data with
  | c :: rest => if c = '-' then checkDigitsDot rest else checkDigitsDot (c :: rest)
  | [] => false

theorem decimalAtMost3Frac_data (c : Char) (rest : List Char) (s : String)
    (h : s.data = c :: rest) :
    decimalAtMost3Frac s =
      if c = '-' then checkDigitsDot rest else checkDigitsDot (c :: rest) := by
  unfold decimalAtMost3Frac
  rw [h]

theorem str_data_append (a b : String) : (a ++ b).data = a.data ++ b.data := rfl

theorem digitChar_isDigit (n : ℕ) (h : n < 10) : (digitChar n).isDigit = true := by
  interval_cases n <;> decide

theorem natDigits_all_digits (fuel : ℕ) :
    ∀ n, (natDigits fuel n).all Char.isDigit = true := by
  induction fuel with
  | zero => intro n; rfl
  | succ fuel ih =>
      intro n
      rw [natDigits]
      split
      · rename_i h
        simp [digitChar_isDigit n h]
      · rename_i h
        simp only [List.all_append]
        rw [ih (n / 10)]
        simp [digitChar_isDigit (n % 10) (Nat.mod_lt n (by omega))]

theorem natDigits_ne_nil (fuel n : ℕ) (h : 1 ≤ fuel) :
    natDigits fuel n ≠ [] := by
  match fuel, h with
  | fuel + 1, _ =>
    rw [natDigits]
    split
    · simp
    · simp

theorem natToStr_all_digits (n : ℕ) : (natToStr n).data.all Char.isDigit = true :=
  natDigits_all_digits (n + 1) n

theorem natToStr_ne_nil (n : ℕ) : (natToStr n).data ≠ [] :=
  natDigits_ne_nil (n + 1) n (by omega)

theorem natDigits_length_le (fuel : ℕ) :
    ∀ n k, 1 ≤ k → n < 10 ^ k → (natDigits fuel n).length ≤ k := by
  induction fuel with
  | zero => intro n k h1 _; simp [natDigits]
  | succ fuel ih =>
      intro n k h1 h2
      rw [natDigits]
      split
      · simpa using h1
      · rename_i h10
        have hk2 : 2 ≤ k := by
          by_contra hc
          have hk1 : k = 1 := by omega
          subst hk1
          norm_num at h2
          omega
        have hdiv : n / 10 < 10 ^ (k - 1) := by
          have he : k = (k - 1) + 1 := by omega
          have h3 : 10 ^ k = 10 * 10 ^ (k - 1) := by
            conv_lhs => rw [he]
            rw [pow_succ]
            ring
          rw [h3] at h2
          omega
        have := ih (n / 10) (k - 1) (by omega) hdiv
        simp only [List.length_append, List.length_cons, List.length_nil]
        omega

theorem takeWhile_append_all (p : Char → Bool) (a b : List Char)
    (ha : a.all p = true) (hb : ∀ c cs, b = c :: cs → p c = false) :
    (a ++ b).takeWhile p = a ∧ (a ++ b).dropWhile p = b := by
  induction a with
  | nil =>
      simp only [List.nil_append]
      cases b with
      | nil => exact ⟨rfl, rfl⟩
      | cons c cs =>
          rw [List.takeWhile_cons, List.dropWhile_cons, hb c cs rfl]
          exact ⟨rfl, rfl⟩
  | cons x xs ih =>
      simp only [List.all_cons, Bool.and_eq_true] at ha
      obtain ⟨e1, e2⟩ := ih ha.2
      simp only [List.cons_append, List.takeWhile_cons, List.dropWhile_cons, ha.1]
      simp [e1, e2]

theorem padZeros_all_digits (d : ℕ) (s : String)
    (hs : s.data.all Char.isDigit = true) :
    (padZeros d s).data.all Char.isDigit = true := by
  show (List.replicate (d - s.data.length) '0' ++ s.data).all Char.isDigit = true
  simp only [List.all_append]
  rw [hs]
  simp only [Bool.and_true, List.all_eq_true]
  intro c hc
  rw [List.eq_of_mem_replicate hc]
  decide

theorem padZeros_length (d : ℕ) (s : String) (h : s.data.length ≤ d) :
    (padZeros d s).data.length = d := by
  show (List.replicate (d - s.data.length) '0' ++ s.data).length = d
  rw [List.length_append, List.length_replicate]
  omega

theorem padZeros_ne_nil (d : ℕ) (s : String) (h : s.data ≠ []) :
    (padZeros d s).data ≠ [] := by
  show List.replicate (d - s.data.length) '0' ++ s.data ≠ []
  simp [h]

theorem toFixedQ3_eq (q : ℚ) : toFixedQ 3 q =
    (if q < 0 then "-" else "") ++
    (natToStr ((⌊|q| * 10 ^ 3 + 1 / 2⌋).toNat / 10 ^ 3) ++ "." ++
     padZeros 3 (natToStr ((⌊|q| * 10 ^ 3 + 1 / 2⌋).toNat % 10 ^ 3))) := rfl

theorem checkDigitsDot_body (q : ℚ) :
    checkDigitsDot
      ((natToStr ((⌊|q| * 10 ^ 3 + 1 / 2⌋).toNat / 10 ^ 3)).data ++
        '.' :: (padZeros 3 (natToStr ((⌊|q| * 10 ^ 3 + 1 / 2⌋).toNat % 10 ^ 3))).data) =
      true := by
  have hm : ((⌊|q| * 10 ^ 3 + 1 / 2⌋).toNat % 10 ^ 3) < 10 ^ 3 :=
    Nat.mod_lt _ (by norm_num)
  have hlen : (natToStr ((⌊|q| * 10 ^ 3 + 1 / 2⌋).toNat % 10 ^ 3)).data.length ≤ 3 :=
    natDigits_length_le _ _ 3 (by omega) hm
  have hfr_digits :=
    padZeros_all_digits 3 (natToStr ((⌊|q| * 10 ^ 3 + 1 / 2⌋).toNat % 10 ^ 3))
      (natToStr_all_digits _)
  have hfr_len :=
    padZeros_length 3 (natToStr ((⌊|q| * 10 ^ 3 + 1 / 2⌋).toNat % 10 ^ 3)) hlen
  obtain ⟨e1, e2⟩ := takeWhile_append_all Char.isDigit
    (natToStr ((⌊|q| * 10 ^ 3 + 1 / 2⌋).toNat / 10 ^ 3)).data
    ('.' :: (padZeros 3 (natToStr ((⌊|q| * 10 ^ 3 + 1 / 2⌋).toNat % 10 ^ 3))).data)
    (natToStr_all_digits _)
    (by intro c cs hc; cases hc; rfl)
  unfold checkDigitsDot
  rw [e1, e2]
  simp only [Bool.and_eq_true, decide_eq_true_eq]
  refine ⟨natToStr_ne_nil _, ⟨⟨trivial, hfr_digits⟩, by rw [hfr_len]; omega⟩,
    by rw [hfr_len]⟩

/-- Every `toFixed(3)` output is a plain decimal with exactly 3 fraction
digits (in particular at most 3; no exponent, no NaN text). -/
theorem toFixedQ_decimal3 (q : ℚ) : decimalAtMost3Frac (toFixedQ 3 q) = true := by
  by_cases hq : q < 0
  · have hd : (toFixedQ 3 q).data =
        '-' :: ((natToStr ((⌊|q| * 10 ^ 3 + 1 / 2⌋).toNat / 10 ^ 3)).data ++
          '.' :: (padZeros 3 (natToStr ((⌊|q| * 10 ^ 3 + 1 / 2⌋).toNat % 10 ^ 3))).data) := by
      rw [toFixedQ3_eq, if_pos hq]
      simp only [str_data_append, List.cons_append, List.append_assoc,
        List.singleton_append, List.nil_append]
    rw [decimalAtMost3Frac_data _ _ _ hd, if_pos rfl]
    exact checkDigitsDot_body q
  · cases hfirst : (natToStr ((⌊|q| * 10 ^ 3 + 1 / 2⌋).toNat / 10 ^ 3)).data with
    | nil => exact absurd hfirst (natToStr_ne_nil _)
    | cons c cs =>
        have hcdig : c.isDigit = true := by
          have := natToStr_all_digits ((⌊|q| * 10 ^ 3 + 1 / 2⌋).toNat / 10 ^ 3)
          rw [hfirst] at this
          simp only [List.all_cons, Bool.and_eq_true] at this
          exact this.1
        have hcne : c ≠ '-' := by
          intro hc
          subst hc
          exact absurd hcdig (by decide)
        have hd : (toFixedQ 3 q).data =
            c :: (cs ++
              '.' :: (padZeros 3 (natToStr ((⌊|q| * 10 ^ 3 + 1 / 2⌋).toNat % 10 ^ 3))).data) := by
          rw [toFixedQ3_eq, if_neg hq]
          simp only [str_data_append, List.cons_append, List.append_assoc,
            List.singleton_append, List.nil_append]
          rw [hfirst]
          rfl
        rw [decimalAtMost3Frac_data _ _ _ hd, if_neg hcne]
        have := checkDigitsDot_body q
        rw [hfirst] at this
        simpa using this

theorem mapPass_get? (step : Token → ℚ → (ℕ → ℚ) → ℕ → Token × ℕ) :
    ∀ (ts : List Token) (intensity : ℚ) (g : ℕ → ℚ) (n k : ℕ),
      ∃ m, (mapPass step ts intensity g n).1.get? k =
             (ts.get? k).map (fun t => (step t intensity g m).1) := by
  intro ts
  induction ts with
  | nil => intro intensity g n k; exact ⟨n, rfl⟩
  | cons t ts ih =>
      intro intensity g n k
      cases k with
      | zero => exact ⟨n, rfl⟩
      | succ k =>
          obtain ⟨m, hm⟩ := ih intensity g (step t intensity g n).2 k
          refine ⟨m, ?_⟩
          show (mapPass step ts intensity g (step t intensity g n).2).1.get? k = _
          exact hm

/-- `jsOfRat` never classifies a real result as NaN. -/
theorem jsOfRat_ne_nan (q : ℚ) : jsOfRat q ≠ JsNum.nan := by
  unfold jsOfRat
  split
  · exact fun h => JsNum.noConfusion h
  · split
    · exact fun h => JsNum.noConfusion h
    · exact fun h => JsNum.noConfusion h

/-- Adding a finite jitter to a non-NaN value never produces NaN. -/
theorem jsAdd_ne_nan (w : JsNum) (d : ℚ) (h : jsIsNaN w = false) :
    jsAdd w d ≠ JsNum.nan := by
  cases w with
  | fin q => exact jsOfRat_ne_nan _
  | posInf => exact fun hc => JsNum.noConfusion hc
  | negInf => exact fun hc => JsNum.noConfusion hc
  | nan => exact absurd h (by simp [jsIsNaN])

/-- Scaling a non-NaN value by a positive factor never produces NaN. -/
theorem jsMul_ne_nan (w : JsNum) (s : ℚ) (hs : 0 < s) (h : jsIsNaN w = false) :
    jsMul w s ≠ JsNum.nan := by
  cases w with
  | fin q => exact jsOfRat_ne_nan _
  | posInf =>
      intro hc
      simp only [jsMul, if_pos hs] at hc
      exact JsNum.noConfusion hc
  | negInf =>
      intro hc
      simp only [jsMul, if_pos hs] at hc
      exact JsNum.noConfusion hc
  | nan => exact absurd h (by simp [jsIsNaN])

/-- The rendering of every non-NaN perturbed value, by classification:
small finite values normalize to `0.0`, moderate ones are the 3-fraction
decimal of `toFixed(3)`, large ones fall back to exponential `ToString`,
and the infinities render as `Infinity`/`-Infinity`. -/
theorem jsNumRender_shape (v : JsNum) (hv : v ≠ JsNum.nan) :
    (∃ p, v = JsNum.fin p ∧
       (|p| < 1/1000 → jsNumRender v = "0.0") ∧
       (1/1000 ≤ |p| → |p| < 10 ^ 21 →
          jsNumRender v = toFixedQ 3 p ∧
          decimalAtMost3Frac (jsNumRender v) = true) ∧
       (10 ^ 21 ≤ |p| → jsNumRender v = jsLargeToString p)) ∨
    (v = JsNum.posInf ∧ jsNumRender v = "Infinity") ∨
    (v = JsNum.negInf ∧ jsNumRender v = "-Infinity") := by
  cases v with
  | fin p =>
      left
      refine ⟨p, rfl, ?_, ?_, ?_⟩
      · intro h
        have hb : jsAbsLtMilli (JsNum.fin p) = true := by
          simp only [jsAbsLtMilli]
          exact decide_eq_true h
        simp [jsNumRender, hb]
      · intro h1 h2
        have hb : jsAbsLtMilli (JsNum.fin p) = false := by
          simp only [jsAbsLtMilli]
          exact decide_eq_false (not_lt.mpr h1)
        have he : jsNumRender (JsNum.fin p) = toFixedQ 3 p := by
          simp [jsNumRender, hb, jsToFixed3, not_le.mpr h2]
        refine ⟨he, ?_⟩
        rw [he]
        exact toFixedQ_decimal3 p
      · intro h
        have h1 : ¬(|p| < 1/1000) :=
          not_lt.mpr (le_trans (by norm_num) h)
        have hb : jsAbsLtMilli (JsNum.fin p) = false := by
          simp only [jsAbsLtMilli]
          exact decide_eq_false h1
        simp [jsNumRender, hb, jsToFixed3, h]
  | posInf => exact Or.inr (Or.inl ⟨rfl, rfl⟩)
  | negInf => exact Or.inr (Or.inr ⟨rfl, rfl⟩)
  | nan => exact absurd rfl hv

/-- One step of the double-classified Numbers pass: either the token is
untouched, or its parse is non-NaN and its text becomes the rendering of
the parsed value perturbed by additive jitter in `[-1/2, 1/2)` or a
scale in `[1/2, 3/2)`. -/
theorem mutateNumbersStepJs_cases (t : Token) (intensity : ℚ) (g : ℕ → ℚ)
    (m : ℕ) (hg : ValidRng g) :
    (mutateNumbersStepJs t intensity g m).1 = t ∨
    ∃ v, jsIsNaN (jsParseFloat t.value) = false ∧
      (mutateNumbersStepJs t intensity g m).1 = { t with value := jsNumRender v } ∧
      ((∃ d, -(1/2) ≤ d ∧ d < 1/2 ∧ v = jsAdd (jsParseFloat t.value) d) ∨
       (∃ s, 1/2 ≤ s ∧ s < 3/2 ∧ v = jsMul (jsParseFloat t.value) s)) := by
  unfold mutateNumbersStepJs
  split
  · split
    · split
      · rename_i hnan
        split
        · right
          refine ⟨jsAdd (jsParseFloat t.value) (g (m+2) - 1/2), hnan, rfl,
            Or.inl ⟨g (m+2) - 1/2, ?_, ?_, rfl⟩⟩
          · have := (hg (m+2)).1; linarith
          · have := (hg (m+2)).2; linarith
        · right
          refine ⟨jsMul (jsParseFloat t.value) (1/2 + g (m+2)), hnan, rfl,
            Or.inr ⟨1/2 + g (m+2), ?_, ?_, rfl⟩⟩
          · have := (hg (m+2)).1; linarith
          · have := (hg (m+2)).2; linarith
      · left; rfl
    · left; rfl
  · left; rfl

set_option maxRecDepth 8000 in
/-- C7 counterexample: the lexer accepts `2.0e308` as one number token
containing `.`; its exact value `2 * 10^308` exceeds the double overflow
midpoint `2^1024 - 2^970`, so `parseFloat` returns `Infinity`, which
passes the `!isNaN` guard, and `Infinity.toFixed(3)` is the text
`Infinity` — the Numbers pass emits a token text that is not a finite
decimal with at most 3 fractional digits, refuting the claimed output
shape on a reachable input (any literal with a `.` and magnitude beyond
the double range, e.g. also `1.5e999`, behaves the same). -/
theorem numbers_pass_infinity :
    (mutateNumbersJs (tokenize "2.0e308") 1 (fun _ => 0) 0).1.map Token.value =
      ["Infinity"] ∧
    decimalAtMost3Frac "Infinity" = false := by
  constructor
  · with_unfolding_all decide
  · decide

/-- C7 (amended): every token the double-classified Numbers pass rewrites
had a non-NaN parse and receives the rendering of `newVal`, the parsed
value perturbed by additive jitter in `[-1/2, 1/2)` or a scale in
`[1/2, 3/2)`.  When `newVal` is finite with `|newVal| < 0.001` the text
is `0.0`; when `0.001 ≤ |newVal| < 10^21` it is `toFixed(3)` — a plain
decimal with exactly 3 fractional digits; when `|newVal| ≥ 10^21`
`toFixed` falls back to exponential `ToString`; and when the parse
overflowed the double range the text is `Infinity` or `-Infinity`. -/
theorem numbers_pass_bounds_js (ts : List Token) (intensity : ℚ) (g : ℕ → ℚ)
    (n : ℕ) (hg : ValidRng g) :
    ∀ k, (mutateNumbersJs ts intensity g n).1.get? k = ts.get? k ∨
      ∃ t v, ts.get? k = some t ∧
        jsIsNaN (jsParseFloat t.value) = false ∧
        (mutateNumbersJs ts intensity g n).1.get? k =
          some { t with value := jsNumRender v } ∧
        ((∃ d, -(1/2) ≤ d ∧ d < 1/2 ∧ v = jsAdd (jsParseFloat t.value) d) ∨
         (∃ s, 1/2 ≤ s ∧ s < 3/2 ∧ v = jsMul (jsParseFloat t.value) s)) ∧
        ((∃ p, v = JsNum.fin p ∧
            (|p| < 1/1000 → jsNumRender v = "0.0") ∧
            (1/1000 ≤ |p| → |p| < 10 ^ 21 →
               jsNumRender v = toFixedQ 3 p ∧
               decimalAtMost3Frac (jsNumRender v) = true) ∧
            (10 ^ 21 ≤ |p| → jsNumRender v = jsLargeToString p)) ∨
         (v = JsNum.posInf ∧ jsNumRender v = "Infinity") ∨
         (v = JsNum.negInf ∧ jsNumRender v = "-Infinity")) := by
  intro k
  unfold mutateNumbersJs
  obtain ⟨m, hm⟩ := mapPass_get? mutateNumbersStepJs ts intensity g n k
  cases hk : ts.get? k with
  | none => left; rw [hm, hk]; rfl
  | some t =>
      rw [hk] at hm
      rcases mutateNumbersStepJs_cases t intensity g m hg with h | ⟨v, hnan, hv, hor⟩
      · left
        rw [hm]
        simpa using congrArg some h
      · right
        have hvnan : v ≠ JsNum.nan := by
          rcases hor with ⟨d, _, _, hveq⟩ | ⟨s, hs1, _, hveq⟩
          · rw [hveq]; exact jsAdd_ne_nan _ _ hnan
          · rw [hveq]; exact jsMul_ne_nan _ _ (by linarith) hnan
        refine ⟨t, v, rfl, hnan, ?_, hor, jsNumRender_shape v hvnan⟩
        rw [hm]
        simp [hv]

/-- Witness for C7 on the literal `1.5` (rewritten to `1.000` when the
draws are 0: its parse is finite and the fixed-decimal branch applies). -/
theorem numbers_pass_bounds_js_witness :
    (mutateNumbersJs (tokenize "1.5") 1 (fun _ => 0) 0).1.get? 0 =
        (tokenize "1.5").get? 0 ∨
      ∃ t v, (tokenize "1.5").get? 0 = some t ∧
        jsIsNaN (jsParseFloat t.value) = false ∧
        (mutateNumbersJs (tokenize "1.5") 1 (fun _ => 0) 0).1.get? 0 =
          some { t with value := jsNumRender v } ∧
        ((∃ d, -(1/2) ≤ d ∧ d < 1/2 ∧ v = jsAdd (jsParseFloat t.value) d) ∨
         (∃ s, 1/2 ≤ s ∧ s < 3/2 ∧ v = jsMul (jsParseFloat t.value) s)) ∧
        ((∃ p, v = JsNum.fin p ∧
            (|p| < 1/1000 → jsNumRender v = "0.0") ∧
            (1/1000 ≤ |p| → |p| < 10 ^ 21 →
               jsNumRender v = toFixedQ 3 p ∧
               decimalAtMost3Frac (jsNumRender v) = true) ∧
            (10 ^ 21 ≤ |p| → jsNumRender v = jsLargeToString p)) ∨
         (v = JsNum.posInf ∧ jsNumRender v = "Infinity") ∨
         (v = JsNum.negInf ∧ jsNumRender v = "-Infinity")) :=
  numbers_pass_bounds_js (tokenize "1.5") 1 (fun _ => 0) 0
    (fun _ => ⟨le_refl 0, by norm_num⟩) 0

/-! ## Geometry rename characterization -/

/-- The leftward member-access scan reads only whitespace-ness and
dot-ness of the tokens at or below its start. -/
theorem prevScanDot_congr (l l' : List Token) :
    ∀ p, (∀ q, q ≤ p → Option.map tokObs (l.get? q) = Option.map tokObs (l'.get? q)) →
      prevScanDot l p = prevScanDot l' p := by
  intro p
  induction p with
  | zero =>
      intro h
      have h0 := h 0 (le_refl 0)
      rw [prevScanDot, prevScanDot]
      cases hq : l.get? 0 with
      | none =>
          cases hq' : l'.get? 0 with
          | none => rfl
          | some t' => rw [hq, hq'] at h0; simp at h0
      | some t =>
          cases hq' : l'.get? 0 with
          | none => rw [hq, hq'] at h0; simp at h0
          | some t' =>
              rw [hq, hq'] at h0
              simp only [Option.map_some'] at h0
              have hobs := Option.some.inj h0
              have hiffw := decide_eq_decide.mp
                (congrArg Prod.fst hobs :
                  decide (t.type = TokenType.whitespace) =
                  decide (t'.type = TokenType.whitespace))
              simp only []
              by_cases hw : t.type = TokenType.whitespace
              · rw [if_pos hw, if_pos (hiffw.mp hw)]
              · rw [if_neg hw, if_neg (fun hc => hw (hiffw.mpr hc))]
                exact congrArg Prod.snd hobs
  | succ p ih =>
      intro h
      have h0 := h (p + 1) (le_refl _)
      rw [prevScanDot, prevScanDot]
      cases hq : l.get? (p + 1) with
      | none =>
          cases hq' : l'.get? (p + 1) with
          | none => rfl
          | some t' => rw [hq, hq'] at h0; simp at h0
      | some t =>
          cases hq' : l'.get? (p + 1) with
          | none => rw [hq, hq'] at h0; simp at h0
          | some t' =>
              rw [hq, hq'] at h0
              simp only [Option.map_some'] at h0
              have hobs := Option.some.inj h0
              have hiffw := decide_eq_decide.mp
                (congrArg Prod.fst hobs :
                  decide (t.type = TokenType.whitespace) =
                  decide (t'.type = TokenType.whitespace))
              simp only []
              by_cases hw : t.type = TokenType.whitespace
              · rw [if_pos hw, if_pos (hiffw.mp hw)]
                exact ih (fun q hq2 => h q (by omega))
              · rw [if_neg hw, if_neg (fun hc => hw (hiffw.mpr hc))]
                exact congrArg Prod.snd hobs

/-- The rightward declaration scan reads only tokens at or above its
start. -/
theorem nextScanColonIdx_congr (l l' : List Token) :
    ∀ (fuel p : ℕ), (∀ q, p ≤ q → l.get? q = l'.get? q) →
      nextScanColonIdx l fuel p = nextScanColonIdx l' fuel p := by
  intro fuel
  induction fuel with
  | zero => intro p h; rfl
  | succ fuel ih =>
      intro p h
      rw [nextScanColonIdx, nextScanColonIdx]
      rw [h p (le_refl p)]
      cases hq : l'.get? p with
      | none => rfl
      | some t =>
          simp only [hq]
          by_cases hw : t.type = TokenType.whitespace
          · rw [if_pos hw, if_pos hw]
            exact ih (p + 1) (fun q hq2 => h q (by omega))
          · rw [if_neg hw, if_neg hw]

/-- Pointwise characterization of the in-place rename loop: a position at
or after the start is rewritten to `newName` exactly when the declarative
condition `shouldRename` holds of the starting list, and every other
position is untouched.  The earlier in-place renames cannot disturb the
member-access scans because neither name is spelled `.`. -/
theorem renameLoopIdx_spec (oldName newName : String)
    (hold : oldName ≠ ".") (hnew : newName ≠ ".") (l₀ : List Token) :
    ∀ (fuel : ℕ) (l : List Token) (i : ℕ),
      l.length = l₀.length →
      (∀ j, i ≤ j → l.get? j = l₀.get? j) →
      (∀ j, Option.map tokObs (l.get? j) = Option.map tokObs (l₀.get? j)) →
      l₀.length ≤ fuel + i →
      ∀ k, (renameLoopIdx fuel l i oldName newName).get? k =
        if i ≤ k ∧ shouldRename l₀ k oldName = true
        then Option.map (fun t => { t with value := newName }) (l₀.get? k)
        else l.get? k := by
  intro fuel
  induction fuel with
  | zero =>
      intro l i hlen hsuf hobs hfuel k
      rw [renameLoopIdx.eq_def]
      rcases Nat.lt_or_ge k i with hki | hki
      · rw [if_neg (fun hc => absurd hc.1 (Nat.not_le.mpr hki))]
      · have hnone : l₀.get? k = none := List.get?_eq_none.mpr (by omega)
        have hsr : shouldRename l₀ k oldName = false := by
          simp only [shouldRename, hnone]
        rw [if_neg (fun hc => by rw [hsr] at hc; exact Bool.false_ne_true hc.2)]
  | succ fuel ih =>
      intro l i hlen hsuf hobs hfuel k
      rw [renameLoopIdx.eq_def]
      cases hq : l.get? i with
      | none =>
          simp only [hq]
          have hge : l.length ≤ i := List.get?_eq_none.mp hq
          rcases Nat.lt_or_ge k i with hki | hki
          · rw [if_neg (fun hc => absurd hc.1 (Nat.not_le.mpr hki))]
          · have hnone : l₀.get? k = none := List.get?_eq_none.mpr (by omega)
            have hsr : shouldRename l₀ k oldName = false := by
              simp only [shouldRename, hnone]
            rw [if_neg (fun hc => by rw [hsr] at hc; exact Bool.false_ne_true hc.2)]
      | some t =>
          simp only [hq]
          have hlt : i < l.length := by
            by_contra hc
            rw [List.get?_eq_none.mpr (by omega)] at hq
            exact Option.noConfusion hq
          have hq₀ : l₀.get? i = some t := by rw [← hsuf i (le_refl i)]; exact hq
          have hprev : prevDotTest l i = prevDotTest l₀ i := by
            cases i with
            | zero => rfl
            | succ i' => exact prevScanDot_congr l l₀ i' (fun q _ => hobs q)
          have hnext : nextScanColon l (i + 1) = nextScanColon l₀ (i + 1) := by
            unfold nextScanColon
            rw [hlen]
            exact nextScanColonIdx_congr l l₀ l₀.length (i + 1)
              (fun q hq2 => hsuf q (by omega))
          by_cases hmatch : t.type = TokenType.ident ∧ t.value = oldName
          · rw [if_pos hmatch]
            have hsri : shouldRename l₀ i oldName =
                ((!prevDotTest l₀ i) && (!nextScanColon l₀ (i + 1))) := by
              simp only [shouldRename, hq₀]
              rw [decide_eq_true hmatch]
              simp
            by_cases hpv : prevDotTest l i = true
            · rw [if_pos hpv]
              have hsri0 : shouldRename l₀ i oldName = false := by
                rw [hsri, ← hprev, hpv]
                rfl
              rw [ih l (i + 1) hlen (fun j hj => hsuf j (by omega)) hobs (by omega) k]
              rcases Nat.lt_or_ge k i with hki | hki
              · rw [if_neg (fun hc => absurd hc.1 (by omega)),
                    if_neg (fun hc => absurd hc.1 (Nat.not_le.mpr hki))]
              · rcases Nat.eq_or_lt_of_le hki with hki' | hki'
                · subst hki'
                  rw [if_neg (fun hc => absurd hc.1 (by omega)),
                      if_neg (fun hc => by
                        rw [hsri0] at hc; exact Bool.false_ne_true hc.2)]
                · have hcond : (i + 1 ≤ k ∧ shouldRename l₀ k oldName = true) ↔
                      (i ≤ k ∧ shouldRename l₀ k oldName = true) :=
                    ⟨fun hc => ⟨by omega, hc.2⟩,
                     fun hc => ⟨by omega, hc.2⟩⟩
                  rw [if_congr hcond rfl rfl]
            · have hpv0 : prevDotTest l i = false :=
                Bool.eq_false_iff.mpr hpv
              rw [if_neg hpv]
              by_cases hnx : nextScanColon l (i + 1) = true
              · rw [if_pos hnx]
                have hsri0 : shouldRename l₀ i oldName = false := by
                  rw [hsri, ← hnext, hnx]
                  simp
                rw [ih l (i + 1) hlen (fun j hj => hsuf j (by omega)) hobs (by omega) k]
                rcases Nat.lt_or_ge k i with hki | hki
                · rw [if_neg (fun hc => absurd hc.1 (by omega)),
                      if_neg (fun hc => absurd hc.1 (Nat.not_le.mpr hki))]
                · rcases Nat.eq_or_lt_of_le hki with hki' | hki'
                  · subst hki'
                    rw [if_neg (fun hc => absurd hc.1 (by omega)),
                        if_neg (fun hc => by
                          rw [hsri0] at hc; exact Bool.false_ne_true hc.2)]
                  · have hcond : (i + 1 ≤ k ∧ shouldRename l₀ k oldName = true) ↔
                        (i ≤ k ∧ shouldRename l₀ k oldName = true) :=
                      ⟨fun hc => ⟨by omega, hc.2⟩,
                       fun hc => ⟨by omega, hc.2⟩⟩
                    rw [if_congr hcond rfl rfl]
              · have hnx0 : nextScanColon l (i + 1) = false :=
                  Bool.eq_false_iff.mpr hnx
                rw [if_neg hnx]
                have hsri1 : shouldRename l₀ i oldName = true := by
                  rw [hsri, ← hprev, ← hnext, hpv0, hnx0]
                  rfl
                have hlen' : (l.set i { t with value := newName }).length = l₀.length := by
                  rw [List.length_set]; exact hlen
                have hsuf' : ∀ j, i + 1 ≤ j →
                    (l.set i { t with value := newName }).get? j = l₀.get? j := by
                  intro j hj
                  rw [List.get?_set_ne _ _ (by omega)]
                  exact hsuf j (by omega)
                have hobs' : ∀ j,
                    Option.map tokObs ((l.set i { t with value := newName }).get? j) =
                    Option.map tokObs (l₀.get? j) := by
                  intro j
                  by_cases hji : j = i
                  · subst hji
                    rw [List.get?_set_eq_of_lt _ hlt, hq₀]
                    simp only [Option.map_some']
                    have e1 : decide (newName = ".") = false := decide_eq_false hnew
                    have e2 : decide (t.value = ".") = false :=
                      decide_eq_false (by rw [hmatch.2]; exact hold)
                    simp [tokObs, e1, e2]
                  · rw [List.get?_set_ne _ _ (by omega)]
                    exact hobs j
                rw [ih (l.set i { t with value := newName }) (i + 1)
                      hlen' hsuf' hobs' (by omega) k]
                rcases Nat.lt_or_ge k i with hki | hki
                · rw [if_neg (fun hc => absurd hc.1 (by omega)),
                      if_neg (fun hc => absurd hc.1 (Nat.not_le.mpr hki))]
                  exact List.get?_set_ne _ _ (by omega)
                · rcases Nat.eq_or_lt_of_le hki with hki' | hki'
                  · subst hki'
                    rw [if_neg (fun hc => absurd hc.1 (by omega)),
                        if_pos ⟨le_refl i, hsri1⟩]
                    rw [List.get?_set_eq_of_lt _ hlt, hq₀]
                    rfl
                  · have hcond : (i + 1 ≤ k ∧ shouldRename l₀ k oldName = true) ↔
                        (i ≤ k ∧ shouldRename l₀ k oldName = true) :=
                      ⟨fun hc => ⟨by omega, hc.2⟩,
                       fun hc => ⟨by omega, hc.2⟩⟩
                    rw [if_congr hcond rfl rfl]
                    by_cases hsk : i ≤ k ∧ shouldRename l₀ k oldName = true
                    · rw [if_pos hsk, if_pos hsk]
                    · rw [if_neg hsk, if_neg hsk]
                      exact List.get?_set_ne _ _ (by omega)
          · rw [if_neg hmatch]
            have hsri0 : shouldRename l₀ i oldName = false := by
              simp only [shouldRename, hq₀]
              rw [decide_eq_false hmatch]
              rfl
            rw [ih l (i + 1) hlen (fun j hj => hsuf j (by omega)) hobs (by omega) k]
            rcases Nat.lt_or_ge k i with hki | hki
            · rw [if_neg (fun hc => absurd hc.1 (by omega)),
                  if_neg (fun hc => absurd hc.1 (Nat.not_le.mpr hki))]
            · rcases Nat.eq_or_lt_of_le hki with hki' | hki'
              · subst hki'
                rw [if_neg (fun hc => absurd hc.1 (by omega)),
                    if_neg (fun hc => by
                      rw [hsri0] at hc; exact Bool.false_ne_true hc.2)]
              · have hcond : (i + 1 ≤ k ∧ shouldRename l₀ k oldName = true) ↔
                    (i ≤ k ∧ shouldRename l₀ k oldName = true) :=
                  ⟨fun hc => ⟨by omega, hc.2⟩,
                   fun hc => ⟨by omega, hc.2⟩⟩
                rw [if_congr hcond rfl rfl]

/-- The whole rename loop, characterized against its own starting list. -/
theorem renameLoop_spec (l : List Token) (i : ℕ) (oldName newName : String)
    (hold : oldName ≠ ".") (hnew : newName ≠ ".") (k : ℕ) :
    (renameLoop l i oldName newName).get? k =
      if i ≤ k ∧ shouldRename l k oldName = true
      then Option.map (fun t => { t with value := newName }) (l.get? k)
      else l.get? k :=
  renameLoopIdx_spec oldName newName hold hnew l l.length l i rfl
    (fun _ _ => rfl) (fun _ => rfl) (by omega) k

/-- The generated rebinding variable contains `_geo_`, so it is never the
one-character text `.`. -/
theorem geo_mutVar_ne_dot (uvName s : String) :
    uvName ++ "_geo_" ++ s ≠ "." := by
  intro h
  have hlen : (uvName ++ "_geo_" ++ s).length = (".").length := by rw [h]
  rw [String.length_append, String.length_append] at hlen
  have h5 : ("_geo_").length = 5 := rfl
  have h1 : (".").length = 1 := rfl
  omega

/-- C5: when any anchor of the Geometry pass is missing (no `fn main`, no
coordinate-variable name, or no body `\x7b`), the pass returns the input
unchanged; when all anchors are found, the output is the input with a
rebinding statement `var <mutVar> = ...;` (one of the five templates,
naming a fresh variable derived from the coordinate name) inserted
immediately after the body's opening brace — i.e. as the first statement
of the function body — and, at every position after that statement, an
occurrence of the coordinate variable is renamed to the new local exactly
when it is an identifier that is not a member-access receiver (nearest
non-whitespace token to the left is `.`) and not a declaration (nearest
non-whitespace token to the right is `:`); every other token is
unchanged. -/
theorem geometry_rename_spec (ts : List Token) (intensity : ℚ) (g : ℕ → ℚ)
    (n : ℕ) :
    (findMainFrom ts 0 = none → mutateGeometry ts intensity g n = (ts, n)) ∧
    (∀ mainIdx, findMainFrom ts 0 = some mainIdx →
       (findUVName ts mainIdx = none ∨ findUVName ts mainIdx = some "") →
       mutateGeometry ts intensity g n = (ts, n)) ∧
    (∀ mainIdx uvName argsStart, findMainFrom ts 0 = some mainIdx →
       findUVName ts mainIdx = some uvName → uvName ≠ "" →
       findFrom (fun t => t.value == "(") ts mainIdx = some argsStart →
       findFrom (fun t => t.value == "\x7b") ts argsStart = none →
       mutateGeometry ts intensity g n = (ts, n)) ∧
    (∀ mainIdx uvName argsStart bodyStart, findMainFrom ts 0 = some mainIdx →
       findUVName ts mainIdx = some uvName → uvName ≠ "" → uvName ≠ "." →
       findFrom (fun t => t.value == "(") ts mainIdx = some argsStart →
       findFrom (fun t => t.value == "\x7b") ts argsStart = some bodyStart →
       ∃ (mutVar : String) (inj injected : List Token),
         mutVar = uvName ++ "_geo_" ++ natToStr (⌊g n * 100000⌋).toNat ∧
         serialize inj = getRandomItem
           (geometryTemplates mutVar uvName (g (n+1)) (g (n+2)) (g (n+3)))
           (g (n+4)) ∧
         injected = ts.take (bodyStart + 1) ++
           (⟨TokenType.whitespace, "\n    ", -1⟩ :: inj ++
            [⟨TokenType.punct, ";", -1⟩]) ++ ts.drop (bodyStart + 1) ∧
         ∀ k, (mutateGeometry ts intensity g n).1.get? k =
           if bodyStart + 1 + inj.length + 2 ≤ k ∧
              shouldRename injected k uvName = true
           then Option.map (fun t => { t with value := mutVar })
                  (injected.get? k)
           else injected.get? k) := by
  refine ⟨fun h => ?_, fun mainIdx hm huv => ?_,
          fun mainIdx uvName argsStart hm hu hne ha hb => ?_,
          fun mainIdx uvName argsStart bodyStart hm hu hne hdot ha hb => ?_⟩
  · unfold mutateGeometry
    rw [h]
  · unfold mutateGeometry
    simp only [hm]
    rcases huv with h | h
    · simp only [h]
    · simp only [h]
      rw [if_pos trivial]
  · unfold mutateGeometry
    simp only [hm, hu]
    rw [if_neg hne]
    simp only [ha, hb]
  · have hred : mutateGeometry ts intensity g n =
        geometryInject ts uvName bodyStart g n := by
      unfold mutateGeometry
      simp only [hm, hu]
      rw [if_neg hne]
      simp only [ha, hb]
    rw [hred]
    refine ⟨uvName ++ "_geo_" ++ natToStr (⌊g n * 100000⌋).toNat,
      tokenize (getRandomItem
        (geometryTemplates (uvName ++ "_geo_" ++ natToStr (⌊g n * 100000⌋).toNat)
          uvName (g (n+1)) (g (n+2)) (g (n+3))) (g (n+4))),
      _, rfl, serialize_tokenize _, rfl, ?_⟩
    intro k
    exact renameLoop_spec _ _ _ _ hdot (geo_mutVar_ne_dot _ _) k

/-- Witness for C5 on `fn main(@location(0) uv : vec2<f32>) -> f32
\x7b return uv.x; \x7d` with the zero random stream: all anchors are found
(`fn` at 0, name `uv`, `(` at 3, `\x7b` at 24). -/
theorem geometry_rename_spec_witness :
    ∃ (mutVar : String) (inj injected : List Token),
      mutVar = "uv" ++ "_geo_" ++ natToStr (⌊(0 : ℚ) * 100000⌋).toNat ∧
      serialize inj = getRandomItem
        (geometryTemplates mutVar "uv" 0 0 0) 0 ∧
      injected =
        (tokenize "fn main(@location(0) uv : vec2<f32>) -> f32 \x7b return uv.x; \x7d").take (24 + 1) ++
        (⟨TokenType.whitespace, "\n    ", -1⟩ :: inj ++
         [⟨TokenType.punct, ";", -1⟩]) ++
        (tokenize "fn main(@location(0) uv : vec2<f32>) -> f32 \x7b return uv.x; \x7d").drop (24 + 1) ∧
      ∀ k, (mutateGeometry
              (tokenize "fn main(@location(0) uv : vec2<f32>) -> f32 \x7b return uv.x; \x7d")
              1 (fun _ => 0) 0).1.get? k =
        if 24 + 1 + inj.length + 2 ≤ k ∧ shouldRename injected k "uv" = true
        then Option.map (fun t => { t with value := mutVar }) (injected.get? k)
        else injected.get? k :=
  (geometry_rename_spec
      (tokenize "fn main(@location(0) uv : vec2<f32>) -> f32 \x7b return uv.x; \x7d")
      1 (fun _ => 0) 0).2.2.2 0 "uv" 3 24 rfl rfl
    (by decide) (by decide) rfl rfl

/-! ## Termination bound of the expression synthesizer -/

/-- C9: `generateScalarExpr(depth, name)` terminates (it is a total
function of this development), and the number of invocations in its call
tree — the instrumented third component — is at most `2^(depth+1) - 1`, a
bound depending on `depth` alone, for every name and every random
stream/cursor. -/
theorem generateScalarExpr_call_bound (depth : ℕ) (name : String)
    (g : ℕ → ℚ) (n : ℕ) :
    (generateScalarExpr depth name g n).2.2 ≤ 2 ^ (depth + 1) - 1 := by
  induction depth generalizing n with
  | zero => simp [generateScalarExpr]
  | succ d ih =>
      have hpow : 2 ^ (d + 1 + 1) = 2 ^ (d + 1) + 2 ^ (d + 1) := by ring
      have hpos : 1 ≤ 2 ^ (d + 1) := Nat.one_le_two_pow
      rw [generateScalarExpr]
      split
      · simpa using by omega
      · split
        · have h1 := ih (n + 3)
          simp only [genUnary]
          omega
        · split
          · have h1 := ih (n + 3)
            have h2 := ih (generateScalarExpr d name g (n + 3)).2.1
            simp only [genBinary]
            omega
          · split
            · have h1 := ih (n + 3)
              have h2 := ih (generateScalarExpr d name g (n + 3)).2.1
              simp only [genMix]
              omega
            · split
              · have h1 := ih (n + 3)
                simp only [genSmoothstep]
                omega
              · have h1 := ih (n + 3)
                have h2 := ih (generateScalarExpr d name g (n + 3)).2.1
                simp only [genSmin]
                omega

end Fuzzaholic
